import Mathlib

/-!
Verification development for a small in-memory RDBMS
(`simple_rdbms.py`): typed columns with constraints, a row store with
per-column equality indexes, CRUD operations, a WHERE-clause compiler,
an INNER JOIN evaluator and whole-snapshot persistence.

The definitions below are a shallow embedding of the Python source.
Python dictionaries are modelled as association lists in insertion
order (Python 3.7+ dicts preserve insertion order); Python sets of row
ids are modelled as duplicate-free lists; Python floats are modelled as
exact rationals (IEEE rounding is not modelled; no verified statement
depends on float arithmetic).
-/

set_option maxHeartbeats 1000000

/-- Python runtime values as they flow through the engine: the `None`
literal, ints, floats (as rationals), bools and strings. -/
inductive PyVal where
  | null
  | int (n : Int)
  | float (q : Rat)
  | bool (b : Bool)
  | str (s : String)
deriving DecidableEq, Repr

/-- Equality class of a value under Python `==`: Python treats `bool`
as a numeric type (`True == 1`) and compares `int`/`float` numerically,
while strings and `None` form their own classes. -/
inductive PyKey where
  | num (q : Rat)
  | text (s : String)
  | knull
deriving DecidableEq, Repr

/-- Canonical representative of a value's Python `==`-class. -/
def PyVal.canon : PyVal → PyKey
  | .null => .knull
  | .int n => .num (n : Rat)
  | .float q => .num q
  | .bool b => .num (if b then 1 else 0)
  | .str s => .text s

/-- Python `==` on engine values (used for dict keys and comparisons). -/
def pyEq (a b : PyVal) : Bool := decide (a.canon = b.canon)

/-- Python `<`-style ordering: numbers compare numerically, strings
lexicographically, anything else (including `None`) is incomparable
and raises `TypeError`. -/
def pyCmp : PyVal → PyVal → Option Ordering
  | a, b =>
    match a.canon, b.canon with
    | .num x, .num y => some (if x < y then .lt else if x = y then .eq else .gt)
    | .text x, .text y => some (if x < y then .lt else if x = y then .eq else .gt)
    | _, _ => none

/-- Typed errors raised by the engine (spec section 7). -/
inductive Err where
  | nullConstraint (col : String)
  | typeConversion (msg : String)
  | duplicateValue (col : String) (v : PyVal)
  | unknownColumn (col : String)
  | unknownTable (name : String)
  | invalidStmt (msg : String)
deriving DecidableEq, Repr

/-- Decidable equality for `Except` results, used to state concrete
facts about operation outcomes. -/
instance {α β : Type} [DecidableEq α] [DecidableEq β] : DecidableEq (Except α β) :=
  fun a b =>
    match a, b with
    | .ok x, .ok y =>
      if h : x = y then .isTrue (by rw [h])
      else .isFalse (fun hc => h (Except.ok.inj hc))
    | .error x, .error y =>
      if h : x = y then .isTrue (by rw [h])
      else .isFalse (fun hc => h (Except.error.inj hc))
    | .ok _, .error _ => .isFalse (fun hc => Except.noConfusion hc)
    | .error _, .ok _ => .isFalse (fun hc => Except.noConfusion hc)

/-! ## String helpers (Python `str.strip` / `str.split`) -/

/-- Characters removed by Python `str.strip()` with no argument. -/
def isPySpace (c : Char) : Bool :=
  c == ' ' || c == '\t' || c == '\n' || c == '\r' || c == '\x0b' || c == '\x0c'

/-- Drop leading characters satisfying `p` (Python `lstrip`). -/
def lstripL (p : Char → Bool) (l : List Char) : List Char := l.dropWhile p

/-- Drop trailing characters satisfying `p` (Python `rstrip`). -/
def rstripL (p : Char → Bool) (l : List Char) : List Char :=
  (l.reverse.dropWhile p).reverse

/-- Python `s.strip()`. -/
def pyStripWS (s : String) : String :=
  ⟨rstripL isPySpace (lstripL isPySpace s.data)⟩

/-- The statement preprocessing of `parse_and_execute`:
`sql.strip().rstrip(';')` — strip surrounding whitespace, then strip
every trailing statement terminator. -/
def stripStatement (s : String) : String :=
  ⟨rstripL (fun c => c == ';') (rstripL isPySpace (lstripL isPySpace s.data))⟩

/-- The three trimming stages of `stripStatement`, at the
character-list level. -/
def stripStmtData (l : List Char) : List Char :=
  rstripL (fun c => c == ';') (rstripL isPySpace (lstripL isPySpace l))

/-- Quote characters removed around SQL literals: `strip("'\"")`. -/
def isQuoteCh (c : Char) : Bool := c == '"' || c.toNat == 39

/-- The literal cleanup `v.strip().strip("'\"")` applied to SQL value
tokens. -/
def stripLit (s : String) : String :=
  ⟨rstripL isQuoteCh (lstripL isQuoteCh (pyStripWS s).data)⟩

/-- Does `sep` occur as a prefix of `l`? -/
def isPrefixL : List Char → List Char → Bool
  | [], _ => true
  | _ :: _, [] => false
  | a :: as, b :: bs => a == b && isPrefixL as bs

/-- Fuel-indexed worker for `strSplitOn` (fuel makes it structurally
recursive so concrete instances reduce in the kernel). -/
def splitGoF (sep : List Char) : Nat → List Char → List Char → List (List Char)
  | _, [], cur => [cur.reverse]
  | 0, l, cur => [cur.reverse ++ l]
  | fuel + 1, c :: rest, cur =>
    if isPrefixL sep (c :: rest) then
      cur.reverse :: splitGoF sep fuel (List.drop (sep.length - 1) rest) []
    else
      splitGoF sep fuel rest (c :: cur)

/-- Python `s.split(sep)` for a non-empty separator: non-overlapping
left-to-right matches, keeping empty pieces. -/
def strSplitOn (s sep : String) : List String :=
  if sep.data.isEmpty then [s]
  else (splitGoF sep.data s.data.length s.data []).map (fun l => ⟨l⟩)

/-! ## Numeric literal parsing (Python `int(...)` / `float(...)`) -/

/-- Value of a decimal digit, if `c` is one. -/
def digitVal (c : Char) : Option Nat :=
  if c.isDigit then some (c.toNat - 48) else none

/-- Accumulating decimal reader; fails on any non-digit. -/
def digitsToNatAux (acc : Nat) : List Char → Option Nat
  | [] => some acc
  | c :: cs =>
    match digitVal c with
    | some d => digitsToNatAux (acc * 10 + d) cs
    | none => none

/-- Read a non-empty all-digit string. -/
def digitsToNat (l : List Char) : Option Nat :=
  if l.isEmpty then none else digitsToNatAux 0 l

/-- Signed integer literal body (after whitespace stripping). -/
def parseIntList : List Char → Option Int
  | '-' :: ds => (digitsToNat ds).map (fun n => -(n : Int))
  | '+' :: ds => (digitsToNat ds).map (fun n => (n : Int))
  | ds => (digitsToNat ds).map (fun n => (n : Int))

/-- Python `int(s)` on a string: surrounding whitespace allowed,
optional sign, decimal digits (digit-group underscores are not
modelled). -/
def parseIntStr (s : String) : Option Int :=
  parseIntList (rstripL isPySpace (lstripL isPySpace s.data))

/-- Split a list into its leading digits and the remainder. -/
def spanDigits : List Char → List Char × List Char
  | [] => ([], [])
  | c :: cs =>
    if c.isDigit then
      match spanDigits cs with
      | (d, r) => (c :: d, r)
    else ([], c :: cs)

/-- Value of all the digits in `l`, most significant first. -/
def natOfDigits (l : List Char) : Nat :=
  l.foldl (fun a c => a * 10 + (c.toNat - 48)) 0

/-- Optional exponent suffix `e`/`E` followed by a signed integer. -/
def expPart : List Char → Option Int
  | [] => some 0
  | 'e' :: r => parseIntList r
  | 'E' :: r => parseIntList r
  | _ => none

/-- Ten to an integer power, as a rational. -/
def tenPow (e : Int) : Rat :=
  if 0 ≤ e then ((10 ^ e.toNat : Nat) : Rat)
  else 1 / ((10 ^ (-e).toNat : Nat) : Rat)

/-- Unsigned float literal body: `digits [. digits] [exp]` or
`. digits [exp]`. -/
def parseUF (l : List Char) : Option Rat :=
  match spanDigits l with
  | (ip, r1) =>
    match r1 with
    | '.' :: r2 =>
      (match spanDigits r2 with
       | (fp, r3) =>
         if ip.isEmpty && fp.isEmpty then none
         else
           (expPart r3).map (fun e =>
             ((natOfDigits ip : Rat)
               + (natOfDigits fp : Rat) / ((10 ^ fp.length : Nat) : Rat)) * tenPow e))
    | _ =>
      if ip.isEmpty then none
      else (expPart r1).map (fun e => (natOfDigits ip : Rat) * tenPow e)

/-- Python `float(s)` on a string, over exact rationals (`inf`/`nan`
and digit-group underscores are not modelled; no verified statement
depends on them). -/
def parseFloatStr (s : String) : Option Rat :=
  match rstripL isPySpace (lstripL isPySpace s.data) with
  | '-' :: r => (parseUF r).map (fun q => -q)
  | '+' :: r => parseUF r
  | r => parseUF r

/-! ## Type coercion (`Column.validate` helpers) -/

/-- Truncation toward zero, as Python `int(float)` does. -/
def ratTrunc (q : Rat) : Int := if 0 ≤ q then q.floor else q.ceil

/-- Python `int(value)` on an engine value. -/
def pyIntOf : PyVal → Except Err Int
  | .int n => .ok n
  | .bool b => .ok (if b then 1 else 0)
  | .float q => .ok (ratTrunc q)
  | .str s =>
    match parseIntStr s with
    | some n => .ok n
    | none => .error (.typeConversion s)
  | .null => .error (.typeConversion "None")

/-- Python `float(value)` on an engine value. -/
def pyFloatOf : PyVal → Except Err Rat
  | .int n => .ok (n : Rat)
  | .bool b => .ok (if b then 1 else 0)
  | .float q => .ok q
  | .str s =>
    match parseFloatStr s with
    | some q => .ok q
    | none => .error (.typeConversion s)
  | .null => .error (.typeConversion "None")

/-- Python `str(value)`. The float case is a stand-in representation:
Python's shortest-roundtrip float repr is not reproduced, and no
verified statement depends on it. -/
def pyStrOf : PyVal → String
  | .int n => toString n
  | .bool b => if b then "True" else "False"
  | .float q => toString q.num ++ "d" ++ toString q.den
  | .str s => s
  | .null => "None"

/-- The BOOLEAN coercion: a bool passes through, anything else is
truthy iff `str(value).lower()` is `'true'`, `'1'` or `'yes'`. -/
def pyBoolOf (v : PyVal) : Bool :=
  match v with
  | .bool b => b
  | _ =>
    let s := (pyStrOf v).toLower
    s == "true" || s == "1" || s == "yes"

/-! ## Columns -/

/-- Supported column data types. -/
inductive DataType where
  | INTEGER
  | TEXT
  | FLOAT
  | BOOLEAN
deriving DecidableEq, Repr

/-- A table column with its type and constraint flags. -/
structure Column where
  name : String
  data_type : DataType
  primary_key : Bool
  unique : Bool
  not_null : Bool
deriving DecidableEq, Repr

/-- The `Column.__init__` constructor: primary keys are forced to be
NOT NULL. -/
def mkColumn (name : String) (dt : DataType) (pk u nn : Bool) : Column :=
  ⟨name, dt, pk, u, nn || pk⟩

/-- `Column.validate`: `None` is rejected for NOT NULL columns and
passes through otherwise; non-null values are coerced to the declared
type. -/
def Column.validate (c : Column) (v : PyVal) : Except Err PyVal :=
  if v = .null then
    if c.not_null then .error (.nullConstraint c.name) else .ok .null
  else
    match c.data_type with
    | .INTEGER =>
      match pyIntOf v with
      | .ok n => .ok (.int n)
      | .error e => .error e
    | .TEXT => .ok (.str (pyStrOf v))
    | .FLOAT =>
      match pyFloatOf v with
      | .ok q => .ok (.float q)
      | .error e => .error e
    | .BOOLEAN => .ok (.bool (pyBoolOf v))

/-! ## Indexes

A `Bucket` models a Python `set` of row ids as a duplicate-free list;
an `Index` models the dict `value -> set of row_ids` as an association
list in insertion order, with Python `==` as key equality. -/

/-- A set of row identifiers. -/
abbrev Bucket := List Nat

/-- Python `set.add`. -/
def bucketAdd (b : Bucket) (id : Nat) : Bucket :=
  if id ∈ b then b else b ++ [id]

/-- Python set equality (order-insensitive). -/
def bucketSetEq (a b : Bucket) : Bool :=
  a.all (fun x => b.contains x) && b.all (fun x => a.contains x)

/-- The value-to-row-ids mapping of one index. -/
abbrev Index := List (PyVal × Bucket)

/-- `Index.find`: the bucket for `v`, or the empty set. -/
def Index.find (idx : Index) (v : PyVal) : Bucket :=
  match idx.find? (fun p => pyEq p.1 v) with
  | some p => p.2
  | none => []

/-- `Index.add`: insert `id` into `v`'s bucket, creating it if absent. -/
def Index.add (idx : Index) (v : PyVal) (id : Nat) : Index :=
  if (idx.find? (fun p => pyEq p.1 v)).isSome then
    idx.map (fun p => if pyEq p.1 v then (p.1, bucketAdd p.2 id) else p)
  else
    idx ++ [(v, [id])]

/-- `Index.remove`: discard `id` from `v`'s bucket, deleting the
bucket when it becomes empty (no-op when `v` has no bucket). -/
def Index.remove (idx : Index) (v : PyVal) (id : Nat) : Index :=
  idx.filterMap (fun p =>
    if pyEq p.1 v then
      if (p.2.erase id).isEmpty then none else some (p.1, p.2.erase id)
    else some p)

/-! ## Rows

A row (and likewise a values dict passed to insert/update) is a Python
dict from column name to value, modelled as an association list in
insertion order. `dict.get` returns `None` both for an absent key and
for a stored null — `rowGet` reproduces exactly that. -/

/-- A stored row, or a values dict supplied to insert/update. -/
abbrev Row := List (String × PyVal)

/-- Python `row.get(k)` (absent key and stored `None` both give
`null`). -/
def rowGet (r : Row) (k : String) : PyVal :=
  match r.find? (fun p => p.1 == k) with
  | some p => p.2
  | none => .null

/-- Python `row[k] = v`: overwrite in place if present, else append. -/
def rowSet (r : Row) (k : String) (v : PyVal) : Row :=
  if (r.find? (fun p => p.1 == k)).isSome then
    r.map (fun p => if p.1 == k then (k, v) else p)
  else
    r ++ [(k, v)]

/-! ## Tables -/

/-- A table: schema in declared order, the row store in row-id
(insertion) order, the next-id counter, and the per-column indexes. -/
structure Table where
  name : String
  columns : List Column
  rows : List (Nat × Row)
  next_id : Nat
  indexes : List (String × Index)
deriving DecidableEq, Repr

/-- Look up the index registered for column `c`, if any. -/
def lookupIdx (idxs : List (String × Index)) (c : String) : Option Index :=
  (idxs.find? (fun p => p.1 == c)).map (fun p => p.2)

/-- Look up a declared column by name. -/
def findCol (cols : List Column) (k : String) : Option Column :=
  cols.find? (fun c => c.name == k)

/-- The uniqueness check of `Table.insert`: a non-null validated value
for a unique/primary-key column whose index already has any entry for
that value is a duplicate. -/
def insDupErr (idxs : List (String × Index)) (c : Column) (v : PyVal) : Bool :=
  !(v == .null) && (c.unique || c.primary_key) &&
    (match lookupIdx idxs c.name with
     | some idx => !(Index.find idx v).isEmpty
     | none => false)

/-- The validation loop of `Table.insert`: validate every declared
column in order (a missing key reads as null) and run the uniqueness
check, building the row to store. -/
def insertLoop (idxs : List (String × Index)) (vals : Row) : List Column → Except Err Row
  | [] => .ok []
  | c :: cs =>
    match c.validate (rowGet vals c.name) with
    | .error e => .error e
    | .ok v =>
      if insDupErr idxs c v then .error (.duplicateValue c.name v)
      else
        match insertLoop idxs vals cs with
        | .error e => .error e
        | .ok r => .ok ((c.name, v) :: r)

/-- Add the non-null values of row `row` (to be stored under `id`)
into every index. -/
def addRowIdxs (idxs : List (String × Index)) (id : Nat) (row : Row) :
    List (String × Index) :=
  idxs.map (fun p =>
    (p.1, if rowGet row p.1 == .null then p.2 else Index.add p.2 (rowGet row p.1) id))

/-- Remove the non-null values of row `row` (stored under `id`) from
every index. -/
def removeRowIdxs (idxs : List (String × Index)) (id : Nat) (row : Row) :
    List (String × Index) :=
  idxs.map (fun p =>
    (p.1, if rowGet row p.1 == .null then p.2 else Index.remove p.2 (rowGet row p.1) id))

/-- `Table.insert`: validate and check constraints, then assign
`next_id`, store the row and index its non-null values. The table is
returned alongside the result because the Python method mutates in
place; on error nothing has been mutated yet. -/
def Table.insert (t : Table) (vals : Row) : Except Err Nat × Table :=
  match insertLoop t.indexes vals t.columns with
  | .error e => (.error e, t)
  | .ok row =>
    (.ok t.next_id,
     { t with
        rows := t.rows ++ [(t.next_id, row)],
        next_id := t.next_id + 1,
        indexes := addRowIdxs t.indexes t.next_id row })

/-- A compiled WHERE filter; it may raise (Python comparisons between
incompatible types raise `TypeError`). -/
abbrev Pred := Row → Except Err Bool

/-- Apply an optional filter; `none` matches every row. -/
def evalWhere : Option Pred → Row → Except Err Bool
  | Option.none, _ => .ok true
  | some f, r => f r

/-- The projection dict comprehension of `Table.select`:
`{col: row.get(col) for col in columns}`. -/
def buildProj (cols : List String) (row : Row) : Row :=
  cols.foldl (fun acc c => rowSet acc c (rowGet row c)) []

/-- The scan of `Table.select`, in row-id (insertion) order; each
matching row is projected and then gets `_row_id` set to its id. -/
def selectGo (cols : List String) (wh : Option Pred) :
    List (Nat × Row) → Except Err (List Row)
  | [] => .ok []
  | (id, row) :: rest =>
    match evalWhere wh row with
    | .error e => .error e
    | .ok false => selectGo cols wh rest
    | .ok true =>
      match selectGo cols wh rest with
      | .error e => .error e
      | .ok rs => .ok (rowSet (buildProj cols row) "_row_id" (.int (id : Int)) :: rs)

/-- `Table.select` with optional column list (default: declared
order) and optional filter. -/
def Table.select (t : Table) (cols? : Option (List String)) (wh : Option Pred) :
    Except Err (List Row) :=
  selectGo (cols?.getD (t.columns.map (fun c => c.name))) wh t.rows

/-- The uniqueness check of `Table.update`: the update is allowed when
the only existing holder of the value is the row being updated. -/
def updDupErr (idxs : List (String × Index)) (id : Nat) (c : Column) (v : PyVal) : Bool :=
  !(v == .null) && (c.unique || c.primary_key) &&
    (match lookupIdx idxs c.name with
     | some idx =>
       !(Index.find idx v).isEmpty && !bucketSetEq (Index.find idx v) [id]
     | none => false)

/-- The assignment loop of `Table.update` for one matched row: each
SET entry in order is resolved to a column (unknown name fails),
validated, uniqueness-checked and written into the row. The row is
returned even on error because the Python code mutates it in place. -/
def applyAssigns (cols : List Column) (idxs : List (String × Index)) (id : Nat) :
    Row → Row → Option Err × Row
  | [], row => (Option.none, row)
  | (k, v) :: rest, row =>
    match findCol cols k with
    | Option.none => (some (.unknownColumn k), row)
    | some c =>
      match c.validate v with
      | .error e => (some e, row)
      | .ok vv =>
        if updDupErr idxs id c vv then (some (.duplicateValue k vv), row)
        else applyAssigns cols idxs id rest (rowSet row k vv)

/-- The row loop of `Table.update`: for each matching row, remove its
current values from all indexes, apply the assignments, re-add the new
values, and continue. On error the partially mutated store and indexes
are returned (the Python method mutates in place and the exception
propagates). -/
def updateGo (cols : List Column) (vals : Row) (wh : Option Pred) :
    List (Nat × Row) → List (String × Index) →
    Except Err Nat × List (Nat × Row) × List (String × Index)
  | [], idxs => (.ok 0, [], idxs)
  | (id, row) :: rest, idxs =>
    match evalWhere wh row with
    | .error e => (.error e, (id, row) :: rest, idxs)
    | .ok false =>
      match updateGo cols vals wh rest idxs with
      | (res, rest', idxs') => (res, (id, row) :: rest', idxs')
    | .ok true =>
      let idxs1 := removeRowIdxs idxs id row
      match applyAssigns cols idxs1 id vals row with
      | (some e, row') => (.error e, (id, row') :: rest, idxs1)
      | (Option.none, row') =>
        let idxs2 := addRowIdxs idxs1 id row'
        match updateGo cols vals wh rest idxs2 with
        | (.error e, rest', idxs') => (.error e, (id, row') :: rest', idxs')
        | (.ok n, rest', idxs') => (.ok (n + 1), (id, row') :: rest', idxs')

/-- `Table.update`: run the row loop and store the (possibly partially
mutated) row store and indexes back into the table. -/
def Table.update (t : Table) (vals : Row) (wh : Option Pred) : Except Err Nat × Table :=
  match updateGo t.columns vals wh t.rows t.indexes with
  | (res, rows', idxs') => (res, { t with rows := rows', indexes := idxs' })

/-- The row loop of `Table.delete`: each matching row's values are
removed from every index and the row is dropped. -/
def deleteGo (wh : Option Pred) :
    List (Nat × Row) → List (String × Index) →
    Except Err Nat × List (Nat × Row) × List (String × Index)
  | [], idxs => (.ok 0, [], idxs)
  | (id, row) :: rest, idxs =>
    match evalWhere wh row with
    | .error e => (.error e, (id, row) :: rest, idxs)
    | .ok false =>
      match deleteGo wh rest idxs with
      | (res, rest', idxs') => (res, (id, row) :: rest', idxs')
    | .ok true =>
      let idxs1 := removeRowIdxs idxs id row
      match deleteGo wh rest idxs1 with
      | (.error e, rest', idxs') => (.error e, rest', idxs')
      | (.ok n, rest', idxs') => (.ok (n + 1), rest', idxs')

/-- `Table.delete`. -/
def Table.delete (t : Table) (wh : Option Pred) : Except Err Nat × Table :=
  match deleteGo wh t.rows t.indexes with
  | (res, rows', idxs') => (res, { t with rows := rows', indexes := idxs' })

/-! ## WHERE-clause compilation (`_parse_where_clause`)

The source returns a closure capturing `(func, col_name, value)`; the
embedding keeps exactly those three components as a record together
with its evaluation function. -/

/-- The six comparison operators. -/
inductive CmpOp where
  | ceq
  | cne
  | cgt
  | clt
  | cge
  | cle
deriving DecidableEq, Repr

/-- A compiled WHERE predicate: column name, operator and coerced
literal. -/
structure WherePred where
  col : String
  op : CmpOp
  lit : PyVal
deriving DecidableEq, Repr

/-- Run one comparison with Python semantics (ordering comparisons on
incompatible types raise `TypeError`). -/
def applyCmp (op : CmpOp) (a b : PyVal) : Except Err Bool :=
  match op with
  | .ceq => .ok (pyEq a b)
  | .cne => .ok (!pyEq a b)
  | .cgt =>
    match pyCmp a b with
    | some o => .ok (decide (o = .gt))
    | none => .error (.typeConversion "unorderable")
  | .clt =>
    match pyCmp a b with
    | some o => .ok (decide (o = .lt))
    | none => .error (.typeConversion "unorderable")
  | .cge =>
    match pyCmp a b with
    | some o => .ok (decide (o ≠ .lt))
    | none => .error (.typeConversion "unorderable")
  | .cle =>
    match pyCmp a b with
    | some o => .ok (decide (o ≠ .gt))
    | none => .error (.typeConversion "unorderable")

/-- The compiled filter: `lambda row: func(row.get(col_name), value)`. -/
def WherePred.eval (p : WherePred) (r : Row) : Except Err Bool :=
  applyCmp p.op (rowGet r p.col) p.lit

/-- Literal coercion of the WHERE operand: try `int`, then `float`,
else leave as (unquoted) string. -/
def coerceLiteral (s : String) : PyVal :=
  match parseIntStr s with
  | some n => .int n
  | Option.none =>
    match parseFloatStr s with
    | some q => .float q
    | Option.none => .str s

/-- The operator table of `_parse_where_clause` in its source dict
(insertion) order. -/
def opTable : List (String × CmpOp) :=
  [("=", .ceq), ("!=", .cne), (">", .cgt), ("<", .clt), (">=", .cge), ("<=", .cle)]

/-- Operator scan: for each operator in table order, if splitting the
clause on it yields exactly two parts, compile with that operator;
otherwise try the next (this mirrors `if op in where_clause` followed
by the two-part check, since a contained operator splits into at least
two parts). -/
def parseWhereGo (wc : String) : List (String × CmpOp) → Except Err WherePred
  | [] => .error (.invalidStmt wc)
  | (opS, op) :: rest =>
    match strSplitOn wc opS with
    | [a, b] => .ok ⟨pyStripWS a, op, coerceLiteral (stripLit b)⟩
    | _ => parseWhereGo wc rest

/-- `_parse_where_clause`. -/
def parseWhere (wc : String) : Except Err WherePred :=
  parseWhereGo wc opTable

/-- Compile an optional WHERE clause. -/
def compileWhere : Option String → Except Err (Option WherePred)
  | Option.none => .ok Option.none
  | some wc =>
    match parseWhere wc with
    | .error e => .error e
    | .ok p => .ok (some p)

/-! ## Database, snapshot persistence and mutating statements

`Database.save` pickles the whole database into one snapshot file;
`Sys.disk` models that file's content. The statement handlers below
embed `_parse_insert` / `_parse_update` / `_parse_delete` after their
regex has matched (a regex mismatch raises before any state is
touched); each performs the in-memory mutation and only then persists. -/

/-- The named tables of one database. -/
structure Database where
  tables : List (String × Table)
deriving DecidableEq, Repr

/-- A database together with the content of its snapshot file
(`none` = file absent). -/
structure Sys where
  db : Database
  disk : Option Database
deriving DecidableEq, Repr

/-- `Database.get_table`, as an option (the Python method raises
`UnknownTable` when absent). -/
def getTable (db : Database) (n : String) : Option Table :=
  (db.tables.find? (fun p => p.1 == n)).map (fun p => p.2)

/-- Store the (in-place mutated) table object back: the Python table
is aliased inside the dict, so the entry is updated regardless of
statement success. -/
def setTable (db : Database) (n : String) (t : Table) : Database :=
  ⟨db.tables.map (fun p => if p.1 == n then (n, t) else p)⟩

/-- `Database.save`: overwrite the snapshot with the full current
state. -/
def saveSys (s : Sys) : Sys :=
  { s with disk := some s.db }

/-- `_parse_insert` after the regex match: split and clean column and
value tokens, check the counts, resolve the table, build the values
dict, insert, and persist only after success. -/
def insertStmt (s : Sys) (tn colsStr valsStr : String) : Except Err String × Sys :=
  let cols := (strSplitOn colsStr ",").map pyStripWS
  let lits := (strSplitOn valsStr ",").map (fun v => PyVal.str (stripLit v))
  if cols.length != lits.length then
    (.error (.invalidStmt "column count mismatch"), s)
  else
    match getTable s.db tn with
    | Option.none => (.error (.unknownTable tn), s)
    | some t =>
      let vd := (cols.zip lits).foldl (fun acc p => rowSet acc p.1 p.2) []
      match t.insert vd with
      | (.error e, t') => (.error e, { s with db := setTable s.db tn t' })
      | (.ok rid, t') =>
        (.ok ("1 row inserted (row_id: " ++ toString rid ++ ")"),
         saveSys { s with db := setTable s.db tn t' })

/-- One `col = val` assignment of a SET clause: split on `=`, requiring
exactly two parts, strip the column and unquote the literal. -/
def parseAssign (s : String) : Except Err (String × String) :=
  match strSplitOn s "=" with
  | [a, b] => .ok (pyStripWS a, stripLit b)
  | _ => .error (.invalidStmt s)

/-- Parse every comma-separated assignment. -/
def parseSetGo : List String → Except Err (List (String × String))
  | [] => .ok []
  | a :: rest =>
    match parseAssign a with
    | .error e => .error e
    | .ok p =>
      match parseSetGo rest with
      | .error e => .error e
      | .ok ps => .ok (p :: ps)

/-- Parse a SET clause into the values dict handed to `Table.update`
(values are the unquoted literal strings). -/
def parseSetClause (sc : String) : Except Err Row :=
  match parseSetGo (strSplitOn sc ",") with
  | .error e => .error e
  | .ok ps => .ok (ps.foldl (fun acc p => rowSet acc p.1 (PyVal.str p.2)) [])

/-- `_parse_update` after the regex match: resolve the table, parse
the SET clause, compile the WHERE clause, update, persist only after
success (note the partially mutated table is kept in memory on error,
exactly as the in-place Python mutation leaves it). -/
def updateStmt (s : Sys) (tn sc : String) (wc : Option String) : Except Err String × Sys :=
  match getTable s.db tn with
  | Option.none => (.error (.unknownTable tn), s)
  | some t =>
    match parseSetClause sc with
    | .error e => (.error e, s)
    | .ok vals =>
      match compileWhere wc with
      | .error e => (.error e, s)
      | .ok whp =>
        match t.update vals (Option.map WherePred.eval whp) with
        | (.error e, t') => (.error e, { s with db := setTable s.db tn t' })
        | (.ok n, t') =>
          (.ok (toString n ++ " row(s) updated"),
           saveSys { s with db := setTable s.db tn t' })

/-- `_parse_delete` after the regex match. -/
def deleteStmt (s : Sys) (tn : String) (wc : Option String) : Except Err String × Sys :=
  match getTable s.db tn with
  | Option.none => (.error (.unknownTable tn), s)
  | some t =>
    match compileWhere wc with
    | .error e => (.error e, s)
    | .ok whp =>
      match t.delete (Option.map WherePred.eval whp) with
      | (.error e, t') => (.error e, { s with db := setTable s.db tn t' })
      | (.ok n, t') =>
        (.ok (toString n ++ " row(s) deleted"),
         saveSys { s with db := setTable s.db tn t' })

/-! ## INNER JOIN (`_parse_select_with_join`) -/

/-- Qualified result key `table.col`. -/
def qualName (tc : String × String) : String := tc.1 ++ "." ++ tc.2

/-- Build one join result row: every projected column is keyed
`table.col` and reads from the left row when qualified with the left
table's name, else from the right row. -/
def buildJoinRow (ltn : String) (cols : List (String × String)) (lr rr : Row) : Row :=
  cols.foldl (fun acc tc =>
    rowSet acc (qualName tc) (if tc.1 == ltn then rowGet lr tc.2 else rowGet rr tc.2)) []

/-- The join condition: each side of `ON a.x = b.y` reads from the
table it is qualified with, and the two values are compared with
Python `==`. -/
def joinMatches (ltn rtn jlt jlc jrt jrc : String) (lr rr : Row) : Bool :=
  let lv := if jlt == ltn then rowGet lr jlc else rowGet rr jlc
  let rv := if jrt == rtn then rowGet rr jrc else rowGet lr jrc
  pyEq lv rv

/-- The full cross-product scan of the join: for every left row and
every right row, emit a projected result row when the join condition
holds. -/
def joinRows (ltn rtn jlt jlc jrt jrc : String) (cols : List (String × String))
    (leftRows rightRows : List Row) : List Row :=
  (leftRows.map (fun lr =>
    rightRows.filterMap (fun rr =>
      if joinMatches ltn rtn jlt jlc jrt jrc lr rr then
        some (buildJoinRow ltn cols lr rr)
      else Option.none))).flatten

/-- Specification-side enumeration of all left/right row pairs. -/
def allPairs (ls rs : List Row) : List (Row × Row) :=
  (ls.map (fun l => rs.map (fun r => (l, r)))).flatten

/-! ## Well-formedness and index consistency invariants -/

/-- Structural well-formedness of one index: keys are pairwise
distinct under Python `==` (dict keys are unique) and every bucket is
a duplicate-free list (it models a set). -/
def IndexWF (idx : Index) : Prop :=
  idx.Pairwise (fun p q => pyEq p.1 q.1 = false) ∧ ∀ p ∈ idx, p.2.Nodup

/-- Well-formedness of an index collection. -/
def IdxsWF (idxs : List (String × Index)) : Prop :=
  ∀ p ∈ idxs, IndexWF p.2

/-- Index/row-store consistency: each index maps a value to exactly
the identifiers of rows holding that value (under Python `==`) in the
indexed column, nulls excluded. -/
def consistentRI (rows : List (Nat × Row)) (idxs : List (String × Index)) : Prop :=
  ∀ p ∈ idxs, ∀ v : PyVal, ∀ i : Nat,
    i ∈ Index.find p.2 v ↔
      ∃ r, (i, r) ∈ rows ∧ pyEq (rowGet r p.1) v = true ∧ rowGet r p.1 ≠ .null

/-- A table's indexes agree with its row store. -/
def Table.consistent (t : Table) : Prop := consistentRI t.rows t.indexes

/-- Table well-formedness: distinct row ids, all below the next-id
counter, and structurally well-formed indexes. -/
def Table.wf (t : Table) : Prop :=
  (t.rows.map (fun p => p.1)).Nodup ∧
  (∀ p ∈ t.rows, p.1 < t.next_id) ∧
  IdxsWF t.indexes

/-! ## Concrete example states (used to instantiate the theorems) -/

/-- An INTEGER UNIQUE column `a`. -/
def exColA : Column := mkColumn "a" .INTEGER false true false

/-- A table with unique column `a`, two rows `a=1`, `a=2`, and the
matching index. -/
def exTableU : Table :=
  ⟨"t", [exColA], [(1, [("a", .int 1)]), (2, [("a", .int 2)])], 3,
   [("a", [(.int 1, [1]), (.int 2, [2])])]⟩

/-- A table whose user-declared column is named `_row_id`, holding 99
in its single row. -/
def exTableR : Table :=
  ⟨"r", [mkColumn "_row_id" .INTEGER false false false],
   [(1, [("_row_id", .int 99)])], 2, []⟩

/-- An empty table with one INTEGER column `a` and no indexes. -/
def exTableE : Table :=
  ⟨"e", [mkColumn "a" .INTEGER false false false], [], 1, []⟩

/-- A one-row, no-index table used to instantiate the invariant
theorems. -/
def exTableN : Table :=
  ⟨"n", [mkColumn "a" .INTEGER false false false], [(1, [("a", .int 5)])], 2, []⟩

/-- An empty system: no tables, snapshot file absent. -/
def exSys : Sys := ⟨⟨[]⟩, Option.none⟩

/-! ## Lemmas about Python equality -/

theorem pyEq_true_iff {a b : PyVal} : pyEq a b = true ↔ a.canon = b.canon := by
  simp [pyEq]

theorem pyEq_false_iff {a b : PyVal} : pyEq a b = false ↔ a.canon ≠ b.canon := by
  simp [pyEq]

theorem pyEq_comm (a b : PyVal) : pyEq a b = pyEq b a := by
  by_cases h : a.canon = b.canon
  · rw [pyEq_true_iff.mpr h, Eq.symm (pyEq_true_iff.mpr h.symm)]
  · rw [pyEq_false_iff.mpr h, Eq.symm (pyEq_false_iff.mpr (Ne.symm h))]

/-! ## Lemmas about buckets -/

theorem mem_bucketAdd {b : Bucket} {id x : Nat} :
    x ∈ bucketAdd b id ↔ x ∈ b ∨ x = id := by
  by_cases h : id ∈ b
  · simp only [bucketAdd, if_pos h]
    constructor
    · exact fun hx => Or.inl hx
    · rintro (hx | rfl) <;> [exact hx; exact h]
  · simp [bucketAdd, if_neg h]

theorem nodup_bucketAdd {b : Bucket} {id : Nat} (h : b.Nodup) :
    (bucketAdd b id).Nodup := by
  by_cases hm : id ∈ b
  · simpa [bucketAdd, if_pos hm] using h
  · simp only [bucketAdd, if_neg hm]
    simpa [List.nodup_append] using ⟨h, fun hx => hm hx⟩
/-! ## Lemmas about index operations -/

theorem find?_cons_eq {α : Type} (p : α → Bool) (a : α) (l : List α) :
    List.find? p (a :: l) = (if p a then some a else List.find? p l) := by
  by_cases h : p a <;> simp [List.find?, h]

theorem filterMap_some_id {α : Type} {f : α → Option α} {l : List α}
    (h : ∀ a ∈ l, f a = some a) : l.filterMap f = l := by
  induction l with
  | nil => rfl
  | cons a l ih =>
    rw [List.filterMap_cons, h a (by simp)]
    exact congrArg (a :: ·) (ih (fun b hb => h b (by simp [hb])))

theorem Index.find_nil (v : PyVal) : Index.find [] v = [] := rfl

theorem Index.find_cons {p : PyVal × Bucket} {idx : Index} {v : PyVal} :
    Index.find (p :: idx) v = (if pyEq p.1 v then p.2 else Index.find idx v) := by
  by_cases h : pyEq p.1 v <;> simp [Index.find, find?_cons_eq, h]

theorem Index.add_cons_neg {p : PyVal × Bucket} {idx : Index} {v : PyVal} {id : Nat}
    (h : pyEq p.1 v = false) :
    Index.add (p :: idx) v id = p :: Index.add idx v id := by
  by_cases hs : (idx.find? (fun q => pyEq q.1 v)).isSome <;>
    simp [Index.add, find?_cons_eq, h, hs]

theorem Index.add_cons_pos {p : PyVal × Bucket} {idx : Index} {v : PyVal} {id : Nat}
    (h : pyEq p.1 v = true)
    (hrest : ∀ q ∈ idx, pyEq q.1 v = false) :
    Index.add (p :: idx) v id = (p.1, bucketAdd p.2 id) :: idx := by
  have hmap : idx.map (fun q => if pyEq q.1 v then (q.1, bucketAdd q.2 id) else q) = idx := by
    have hc : ∀ q ∈ idx, (if pyEq q.1 v then (q.1, bucketAdd q.2 id) else q) = q := by
      intro q hq
      simp [hrest q hq]
    rw [List.map_congr_left hc]
    simp
  simp [Index.add, find?_cons_eq, h, hmap]

theorem Index.find_add_mem {idx : Index} {v w : PyVal} {id i : Nat}
    (hwf : idx.Pairwise (fun p q => pyEq p.1 q.1 = false)) :
    i ∈ Index.find (Index.add idx v id) w ↔
      i ∈ Index.find idx w ∨ (i = id ∧ pyEq v w = true) := by
  induction idx with
  | nil =>
    by_cases h : pyEq v w = true <;>
      simp [Index.add, Index.find, List.find?, h]
  | cons p idx ih =>
    have hp := List.pairwise_cons.mp hwf
    by_cases hpv : pyEq p.1 v = true
    · have hrest : ∀ q ∈ idx, pyEq q.1 v = false := by
        intro q hq
        rw [pyEq_false_iff]
        intro hc
        have h1 := hp.1 q hq
        rw [pyEq_false_iff] at h1
        exact h1 ((pyEq_true_iff.mp hpv).trans hc.symm)
      rw [Index.add_cons_pos hpv hrest]
      by_cases hpw : pyEq p.1 w = true
      · rw [Index.find_cons (p := (p.1, bucketAdd p.2 id)), Index.find_cons]
        have hvw : pyEq v w = true := by
          rw [pyEq_true_iff] at hpv hpw ⊢
          exact hpv.symm.trans hpw
        simp [hpw, mem_bucketAdd, hvw]
      · rw [Bool.not_eq_true] at hpw
        rw [Index.find_cons (p := (p.1, bucketAdd p.2 id)), Index.find_cons]
        have hvw : pyEq v w = false := by
          rw [pyEq_false_iff]
          intro hc
          rw [pyEq_true_iff] at hpv
          rw [pyEq_false_iff] at hpw
          exact hpw (hpv.trans hc)
        simp [hpw, hvw]
    · rw [Bool.not_eq_true] at hpv
      rw [Index.add_cons_neg hpv]
      by_cases hpw : pyEq p.1 w = true
      · rw [Index.find_cons, Index.find_cons]
        have hvw : pyEq v w = false := by
          rw [pyEq_false_iff]
          intro hc
          rw [pyEq_true_iff] at hpw
          rw [pyEq_false_iff] at hpv
          exact hpv (hpw.trans hc.symm)
        simp [hpw, hvw]
      · rw [Bool.not_eq_true] at hpw
        rw [Index.find_cons, Index.find_cons]
        simp only [hpw, Bool.false_eq_true, if_false]
        exact ih hp.2

theorem Index.find_eq_nil_of_no_key {idx : Index} {w : PyVal}
    (h : ∀ q ∈ idx, pyEq q.1 w = false) : Index.find idx w = [] := by
  induction idx with
  | nil => rfl
  | cons p idx ih =>
    rw [Index.find_cons, if_neg (by simp [h p (by simp)])]
    exact ih (fun q hq => h q (by simp [hq]))

theorem Index.remove_of_no_key {idx : Index} {v : PyVal} {id : Nat}
    (h : ∀ q ∈ idx, pyEq q.1 v = false) : Index.remove idx v id = idx := by
  apply filterMap_some_id
  intro q hq
  simp [h q hq]

theorem Index.remove_cons_pos_emp {p : PyVal × Bucket} {idx : Index} {v : PyVal}
    {id : Nat} (h1 : pyEq p.1 v = true) (h2 : (p.2.erase id).isEmpty = true) :
    Index.remove (p :: idx) v id = Index.remove idx v id := by
  show List.filterMap _ _ = _
  rw [List.filterMap_cons, if_pos h1, if_pos h2]
  rfl

theorem Index.remove_cons_pos_ne {p : PyVal × Bucket} {idx : Index} {v : PyVal}
    {id : Nat} (h1 : pyEq p.1 v = true) (h2 : ¬ (p.2.erase id).isEmpty = true) :
    Index.remove (p :: idx) v id = (p.1, p.2.erase id) :: Index.remove idx v id := by
  show List.filterMap _ _ = _
  rw [List.filterMap_cons, if_pos h1, if_neg h2]
  rfl

theorem Index.remove_cons_neg {p : PyVal × Bucket} {idx : Index} {v : PyVal}
    {id : Nat} (h1 : ¬ pyEq p.1 v = true) :
    Index.remove (p :: idx) v id = p :: Index.remove idx v id := by
  show List.filterMap _ _ = _
  rw [List.filterMap_cons, if_neg h1]
  rfl

theorem Index.find_remove_mem {idx : Index} {v w : PyVal} {id i : Nat}
    (hwf : IndexWF idx) :
    i ∈ Index.find (Index.remove idx v id) w ↔
      i ∈ Index.find idx w ∧ ¬(i = id ∧ pyEq v w = true) := by
  obtain ⟨hpr, hnd⟩ := hwf
  induction idx with
  | nil => simp [Index.remove, Index.find]
  | cons p idx ih =>
    have hk := List.pairwise_cons.mp hpr
    have hndp : p.2.Nodup := hnd p (by simp)
    have hndt : ∀ q ∈ idx, q.2.Nodup := fun q hq => hnd q (by simp [hq])
    by_cases hpv : pyEq p.1 v = true
    · have hrest : ∀ q ∈ idx, pyEq q.1 v = false := by
        intro q hq
        rw [pyEq_false_iff]
        intro hc
        have h1 := hk.1 q hq
        rw [pyEq_false_iff] at h1
        exact h1 ((pyEq_true_iff.mp hpv).trans hc.symm)
      have htail : Index.remove idx v id = idx := Index.remove_of_no_key hrest
      by_cases hpw : pyEq p.1 w = true
      · have hvw : pyEq v w = true := by
          rw [pyEq_true_iff] at hpv hpw ⊢
          exact hpv.symm.trans hpw
        have hwrest : ∀ q ∈ idx, pyEq q.1 w = false := by
          intro q hq
          rw [pyEq_false_iff]
          intro hc
          have h1 := hk.1 q hq
          rw [pyEq_false_iff] at h1
          exact h1 ((pyEq_true_iff.mp hpw).trans hc.symm)
        by_cases hemp : (p.2.erase id).isEmpty
        · rw [Index.remove_cons_pos_emp hpv hemp, htail,
            Index.find_eq_nil_of_no_key hwrest, Index.find_cons, if_pos hpw]
          constructor
          · intro h
            exact absurd h (List.not_mem_nil i)
          · rintro ⟨hip, hcon⟩
            have hni : i ≠ id := fun hh => hcon ⟨hh, hvw⟩
            have hmem : i ∈ p.2.erase id := hndp.mem_erase_iff.mpr ⟨hni, hip⟩
            rw [List.isEmpty_iff] at hemp
            rw [hemp] at hmem
            exact absurd hmem (List.not_mem_nil i)
        · rw [Index.remove_cons_pos_ne hpv hemp, htail,
            Index.find_cons (p := (p.1, p.2.erase id)), if_pos hpw,
            Index.find_cons, if_pos hpw, hndp.mem_erase_iff]
          simp [hvw]
          tauto
      · rw [Bool.not_eq_true] at hpw
        have hvw : pyEq v w = false := by
          rw [pyEq_false_iff]
          intro hc
          rw [pyEq_true_iff] at hpv
          rw [pyEq_false_iff] at hpw
          exact hpw (hpv.trans hc)
        by_cases hemp : (p.2.erase id).isEmpty
        · rw [Index.remove_cons_pos_emp hpv hemp, htail,
            Index.find_cons, if_neg (by simp [hpw])]
          simp [hvw]
        · rw [Index.remove_cons_pos_ne hpv hemp, htail,
            Index.find_cons (p := (p.1, p.2.erase id)), if_neg (by simp [hpw]),
            Index.find_cons, if_neg (by simp [hpw])]
          simp [hvw]
    · rw [Bool.not_eq_true] at hpv
      rw [Index.remove_cons_neg (by simp [hpv])]
      by_cases hpw : pyEq p.1 w = true
      · have hvw : pyEq v w = false := by
          rw [pyEq_false_iff]
          intro hc
          rw [pyEq_true_iff] at hpw
          rw [pyEq_false_iff] at hpv
          exact hpv (hpw.trans hc.symm)
        rw [Index.find_cons, if_pos hpw, Index.find_cons, if_pos hpw]
        simp [hvw]
      · rw [Bool.not_eq_true] at hpw
        rw [Index.find_cons, if_neg (by simp [hpw]), Index.find_cons,
          if_neg (by simp [hpw])]
        exact ih hk.2 hndt

theorem addKey_eq (v : PyVal) (id : Nat) (p : PyVal × Bucket) :
    (if pyEq p.1 v then (p.1, bucketAdd p.2 id) else p).1 = p.1 := by
  by_cases h : pyEq p.1 v = true <;> simp [h]

theorem IndexWF_add {idx : Index} {v : PyVal} {id : Nat} (h : IndexWF idx) :
    IndexWF (Index.add idx v id) := by
  obtain ⟨hpr, hnd⟩ := h
  by_cases hs : (idx.find? (fun q => pyEq q.1 v)).isSome
  · constructor
    · rw [Index.add, if_pos hs, List.pairwise_map]
      exact hpr.imp (fun hab => by rwa [addKey_eq, addKey_eq])
    · intro q hq
      rw [Index.add, if_pos hs] at hq
      obtain ⟨a, ha, rfl⟩ := List.mem_map.mp hq
      by_cases hav : pyEq a.1 v = true
      · simp only [hav, if_true]
        exact nodup_bucketAdd (hnd a ha)
      · simp only [hav, Bool.false_eq_true, if_false]
        exact hnd a ha
  · rw [Index.add, if_neg hs]
    have hnone : ∀ a ∈ idx, pyEq a.1 v = false := by
      intro a ha
      have := List.find?_eq_none.mp (Option.not_isSome_iff_eq_none.mp hs) a ha
      simpa using this
    constructor
    · rw [List.pairwise_append]
      refine ⟨hpr, by simp, ?_⟩
      intro a ha b hb
      simp only [List.mem_singleton] at hb
      subst hb
      exact hnone a ha
    · intro q hq
      rcases List.mem_append.mp hq with h | h
      · exact hnd q h
      · simp only [List.mem_singleton] at h
        subst h
        simp

theorem mem_remove_shape {idx : Index} {v : PyVal} {id : Nat} {q : PyVal × Bucket}
    (h : q ∈ Index.remove idx v id) :
    ∃ p ∈ idx, q.1 = p.1 ∧ (q.2 = p.2 ∨ q.2 = p.2.erase id) := by
  induction idx with
  | nil => simp [Index.remove] at h
  | cons p idx ih =>
    by_cases h1 : pyEq p.1 v = true
    · by_cases h2 : (p.2.erase id).isEmpty = true
      · rw [Index.remove_cons_pos_emp h1 h2] at h
        obtain ⟨r, hr, hh⟩ := ih h
        exact ⟨r, by simp [hr], hh⟩
      · rw [Index.remove_cons_pos_ne h1 h2] at h
        rcases List.mem_cons.mp h with h | h
        · subst h
          exact ⟨p, by simp, rfl, Or.inr rfl⟩
        · obtain ⟨r, hr, hh⟩ := ih h
          exact ⟨r, by simp [hr], hh⟩
    · rw [Index.remove_cons_neg h1] at h
      rcases List.mem_cons.mp h with h | h
      · subst h
        exact ⟨q, by simp, rfl, Or.inl rfl⟩
      · obtain ⟨r, hr, hh⟩ := ih h
        exact ⟨r, by simp [hr], hh⟩

theorem remove_pairwise {idx : Index} {v : PyVal} {id : Nat}
    (hpr : idx.Pairwise (fun p q => pyEq p.1 q.1 = false)) :
    (Index.remove idx v id).Pairwise (fun p q => pyEq p.1 q.1 = false) := by
  induction idx with
  | nil => simp [Index.remove]
  | cons p idx ih =>
    have hk := List.pairwise_cons.mp hpr
    have htail := ih hk.2
    by_cases h1 : pyEq p.1 v = true
    · by_cases h2 : (p.2.erase id).isEmpty = true
      · rw [Index.remove_cons_pos_emp h1 h2]
        exact htail
      · rw [Index.remove_cons_pos_ne h1 h2]
        refine List.pairwise_cons.mpr ⟨?_, htail⟩
        intro q hq
        obtain ⟨r, hr, hkey, _⟩ := mem_remove_shape hq
        rw [hkey]
        exact hk.1 r hr
    · rw [Index.remove_cons_neg h1]
      refine List.pairwise_cons.mpr ⟨?_, htail⟩
      intro q hq
      obtain ⟨r, hr, hkey, _⟩ := mem_remove_shape hq
      rw [hkey]
      exact hk.1 r hr

theorem IndexWF_remove {idx : Index} {v : PyVal} {id : Nat} (h : IndexWF idx) :
    IndexWF (Index.remove idx v id) := by
  obtain ⟨hpr, hnd⟩ := h
  refine ⟨remove_pairwise hpr, ?_⟩
  intro q hq
  obtain ⟨r, hr, _, hb⟩ := mem_remove_shape hq
  rcases hb with hb | hb
  · rw [hb]
    exact hnd r hr
  · rw [hb]
    exact (hnd r hr).erase id

theorem IdxsWF_addRowIdxs {idxs : List (String × Index)} {id : Nat} {row : Row}
    (h : IdxsWF idxs) : IdxsWF (addRowIdxs idxs id row) := by
  intro p hp
  obtain ⟨q, hq, rfl⟩ := List.mem_map.mp hp
  by_cases hn : (rowGet row q.1 == PyVal.null) = true
  · simpa [hn] using h q hq
  · simp only [hn, Bool.false_eq_true, if_false]
    exact IndexWF_add (h q hq)

theorem IdxsWF_removeRowIdxs {idxs : List (String × Index)} {id : Nat} {row : Row}
    (h : IdxsWF idxs) : IdxsWF (removeRowIdxs idxs id row) := by
  intro p hp
  obtain ⟨q, hq, rfl⟩ := List.mem_map.mp hp
  by_cases hn : (rowGet row q.1 == PyVal.null) = true
  · simpa [hn] using h q hq
  · simp only [hn, Bool.false_eq_true, if_false]
    exact IndexWF_remove (h q hq)

/-! ## Consistency transfer under adding/removing one row's values -/

theorem consistentRI_add_row {rows rows' : List (Nat × Row)}
    {idxs : List (String × Index)} {id : Nat} {row : Row}
    (hwf : IdxsWF idxs)
    (hc : consistentRI rows idxs)
    (hid : ∀ r, (id, r) ∉ rows)
    (hmem : ∀ i r, (i, r) ∈ rows' ↔ (i, r) ∈ rows ∨ (i = id ∧ r = row)) :
    consistentRI rows' (addRowIdxs idxs id row) := by
  intro p' hp' v i
  obtain ⟨p, hp, rfl⟩ := List.mem_map.mp hp'
  by_cases hn : (rowGet row p.1 == PyVal.null) = true
  · rw [beq_iff_eq] at hn
    simp only [hn, beq_self_eq_true, if_true]
    rw [hc p hp v i]
    constructor
    · rintro ⟨r, hr, hpv, hnn⟩
      exact ⟨r, (hmem i r).mpr (Or.inl hr), hpv, hnn⟩
    · rintro ⟨r, hr, hpv, hnn⟩
      rcases (hmem i r).mp hr with h | ⟨rfl, rfl⟩
      · exact ⟨r, h, hpv, hnn⟩
      · exact absurd hn hnn
  · have hnn : rowGet row p.1 ≠ PyVal.null := by
      intro hh
      rw [hh] at hn
      simp at hn
    simp only [hn, Bool.false_eq_true, if_false]
    rw [Index.find_add_mem (hwf p hp).1]
    constructor
    · rintro (h | ⟨rfl, hpv⟩)
      · obtain ⟨r, hr, hpv, hrn⟩ := (hc p hp v i).mp h
        exact ⟨r, (hmem i r).mpr (Or.inl hr), hpv, hrn⟩
      · exact ⟨row, (hmem i row).mpr (Or.inr ⟨rfl, rfl⟩), hpv, hnn⟩
    · rintro ⟨r, hr, hpv, hrn⟩
      rcases (hmem i r).mp hr with h | ⟨rfl, rfl⟩
      · exact Or.inl ((hc p hp v i).mpr ⟨r, h, hpv, hrn⟩)
      · exact Or.inr ⟨rfl, hpv⟩

theorem consistentRI_remove_row {rows rows' : List (Nat × Row)}
    {idxs : List (String × Index)} {id : Nat} {row : Row}
    (hwf : IdxsWF idxs)
    (hc : consistentRI rows idxs)
    (hmem : ∀ i r, (i, r) ∈ rows ↔ (i, r) ∈ rows' ∨ (i = id ∧ r = row))
    (hid : ∀ r, (id, r) ∉ rows') :
    consistentRI rows' (removeRowIdxs idxs id row) := by
  intro p' hp' v i
  obtain ⟨p, hp, rfl⟩ := List.mem_map.mp hp'
  by_cases hn : (rowGet row p.1 == PyVal.null) = true
  · rw [beq_iff_eq] at hn
    simp only [hn, beq_self_eq_true, if_true]
    rw [hc p hp v i]
    constructor
    · rintro ⟨r, hr, hpv, hnn⟩
      rcases (hmem i r).mp hr with h | ⟨rfl, rfl⟩
      · exact ⟨r, h, hpv, hnn⟩
      · exact absurd hn hnn
    · rintro ⟨r, hr, hpv, hnn⟩
      exact ⟨r, (hmem i r).mpr (Or.inl hr), hpv, hnn⟩
  · have hnn : rowGet row p.1 ≠ PyVal.null := by
      intro hh
      rw [hh] at hn
      simp at hn
    simp only [hn, Bool.false_eq_true, if_false]
    rw [Index.find_remove_mem (hwf p hp)]
    rw [hc p hp v i]
    constructor
    · rintro ⟨⟨r, hr, hpv, hrn⟩, hni⟩
      rcases (hmem i r).mp hr with h | ⟨rfl, rfl⟩
      · exact ⟨r, h, hpv, hrn⟩
      · exact absurd ⟨rfl, hpv⟩ hni
    · rintro ⟨r, hr, hpv, hrn⟩
      refine ⟨⟨r, (hmem i r).mpr (Or.inl hr), hpv, hrn⟩, ?_⟩
      rintro ⟨rfl, hvw⟩
      exact hid r hr

/-! ## Operation-level invariant lemmas -/

theorem not_mem_of_nodup_ids {ctx rest : List (Nat × Row)} {id : Nat} {row : Row}
    (hnd : ((ctx ++ (id, row) :: rest).map (fun p => p.1)).Nodup) :
    ∀ r, (id, r) ∉ ctx ++ rest := by
  intro r hr
  rw [List.map_append, List.map_cons] at hnd
  obtain ⟨hc1, hc2, hdisj⟩ := List.nodup_append.mp hnd
  rcases List.mem_append.mp hr with h | h
  · exact hdisj (List.mem_map.mpr ⟨(id, r), h, rfl⟩) (by simp)
  · exact (List.nodup_cons.mp hc2).1 (List.mem_map.mpr ⟨(id, r), h, rfl⟩)

theorem mem_middle_iff {ctx rest : List (Nat × Row)} {id : Nat} {row : Row}
    (i : Nat) (r : Row) :
    (i, r) ∈ ctx ++ (id, row) :: rest ↔
      (i, r) ∈ ctx ++ rest ∨ (i = id ∧ r = row) := by
  simp only [List.mem_append, List.mem_cons, Prod.mk.injEq]
  tauto

theorem insert_ok_spec {t : Table} {vals : Row} {id : Nat} {t' : Table}
    (hwf : t.wf) (hc : t.consistent)
    (h : t.insert vals = (.ok id, t')) :
    id = t.next_id ∧ t'.next_id = t.next_id + 1 ∧
    (∃ row, t'.rows = t.rows ++ [(id, row)]) ∧
    t'.consistent ∧ t'.wf ∧ t'.columns = t.columns := by
  obtain ⟨hnd, hlt, hiwf⟩ := hwf
  cases hins : insertLoop t.indexes vals t.columns with
  | error e =>
    rw [Table.insert, hins] at h
    exact absurd (congrArg Prod.fst h) (by simp)
  | ok row =>
    rw [Table.insert, hins] at h
    simp only at h
    obtain ⟨h1, h2⟩ := Prod.ext_iff.mp h
    simp only at h1 h2
    injection h1 with h1
    subst h1
    subst h2
    have hid : ∀ r, (t.next_id, r) ∉ t.rows := by
      intro r hr
      exact absurd (hlt _ hr) (by simp)
    refine ⟨rfl, rfl, ⟨row, rfl⟩, ?_, ?_, rfl⟩
    · exact consistentRI_add_row hiwf hc hid
        (by
          intro i r
          simp only [List.mem_append, List.mem_singleton, Prod.mk.injEq])
    · refine ⟨?_, ?_, IdxsWF_addRowIdxs hiwf⟩
      · rw [List.map_append, List.nodup_append]
        refine ⟨hnd, by simp, ?_⟩
        intro a ha hb
        simp only [List.map_cons, List.map_nil, List.mem_cons, List.not_mem_nil,
          or_false] at hb
        subst hb
        obtain ⟨p, hp, hpa⟩ := List.mem_map.mp ha
        have hplt := hlt p hp
        rw [hpa] at hplt
        exact absurd hplt (lt_irrefl _)
      · intro p hp
        rcases List.mem_append.mp hp with hp | hp
        · exact Nat.lt_succ_of_lt (hlt p hp)
        · simp only [List.mem_singleton] at hp
          rw [hp]
          exact Nat.lt_succ_self _

theorem updateGo_ok_spec (cols : List Column) (vals : Row) (wh : Option Pred)
    (rest : List (Nat × Row)) :
    ∀ (ctx : List (Nat × Row)) (idxs : List (String × Index))
      (n : Nat) (rest' : List (Nat × Row)) (idxs' : List (String × Index)),
      IdxsWF idxs →
      ((ctx ++ rest).map (fun p => p.1)).Nodup →
      consistentRI (ctx ++ rest) idxs →
      updateGo cols vals wh rest idxs = (.ok n, rest', idxs') →
      consistentRI (ctx ++ rest') idxs' ∧ IdxsWF idxs' ∧
        rest'.map (fun p => p.1) = rest.map (fun p => p.1) := by
  induction rest with
  | nil =>
    intro ctx idxs n rest' idxs' hwf hnd hc h
    rw [updateGo] at h
    obtain ⟨h1, h23⟩ := Prod.ext_iff.mp h
    obtain ⟨h2, h3⟩ := Prod.ext_iff.mp h23
    simp only at h1 h2 h3
    subst h2
    subst h3
    exact ⟨hc, hwf, rfl⟩
  | cons hd rest ih =>
    obtain ⟨id, row⟩ := hd
    intro ctx idxs n rest' idxs' hwf hnd hc h
    rw [updateGo] at h
    cases hev : evalWhere wh row with
    | error e =>
      rw [hev] at h
      simp only at h
      exact absurd (Prod.ext_iff.mp h).1 (by simp)
    | ok b =>
      rw [hev] at h
      cases b with
      | false =>
        simp only at h
        rcases hrec : updateGo cols vals wh rest idxs with ⟨res, r0, i0⟩
        rw [hrec] at h
        simp only at h
        obtain ⟨h1, h23⟩ := Prod.ext_iff.mp h
        obtain ⟨h2, h3⟩ := Prod.ext_iff.mp h23
        simp only at h1 h2 h3
        subst h1
        subst h2
        subst h3
        have hshape : (ctx ++ [(id, row)]) ++ rest = ctx ++ (id, row) :: rest := by
          simp
        have hnd' : (((ctx ++ [(id, row)]) ++ rest).map (fun p => p.1)).Nodup := by
          rw [hshape]
          exact hnd
        have hc' : consistentRI ((ctx ++ [(id, row)]) ++ rest) idxs := by
          rw [hshape]
          exact hc
        obtain ⟨hcf, hwff, hidsf⟩ :=
          ih (ctx ++ [(id, row)]) idxs n r0 i0 hwf hnd' hc' hrec
        refine ⟨?_, hwff, ?_⟩
        · have hshape2 : (ctx ++ [(id, row)]) ++ r0 = ctx ++ (id, row) :: r0 := by
            simp
          rw [hshape2] at hcf
          exact hcf
        · simp [hidsf]
      | true =>
        simp only at h
        rcases hass : applyAssigns cols (removeRowIdxs idxs id row) id vals row
          with ⟨oe, row'⟩
        rw [hass] at h
        cases oe with
        | some e =>
          simp only at h
          exact absurd (Prod.ext_iff.mp h).1 (by simp)
        | none =>
          simp only at h
          rcases hrec : updateGo cols vals wh rest
              (addRowIdxs (removeRowIdxs idxs id row) id row') with ⟨res, r0, i0⟩
          rw [hrec] at h
          cases res with
          | error e =>
            simp only at h
            exact absurd (Prod.ext_iff.mp h).1 (by simp)
          | ok m =>
            simp only at h
            obtain ⟨h1, h23⟩ := Prod.ext_iff.mp h
            obtain ⟨h2, h3⟩ := Prod.ext_iff.mp h23
            simp only at h1 h2 h3
            subst h2
            subst h3
            have hid : ∀ r, (id, r) ∉ ctx ++ rest := not_mem_of_nodup_ids hnd
            have hwf1 : IdxsWF (removeRowIdxs idxs id row) := IdxsWF_removeRowIdxs hwf
            have hc1 : consistentRI (ctx ++ rest) (removeRowIdxs idxs id row) :=
              consistentRI_remove_row hwf hc (fun i r => mem_middle_iff i r) hid
            have hwf2 : IdxsWF (addRowIdxs (removeRowIdxs idxs id row) id row') :=
              IdxsWF_addRowIdxs hwf1
            have hc2 : consistentRI (ctx ++ (id, row') :: rest)
                (addRowIdxs (removeRowIdxs idxs id row) id row') :=
              consistentRI_add_row hwf1 hc1 hid (fun i r => mem_middle_iff i r)
            have hshape : (ctx ++ [(id, row')]) ++ rest = ctx ++ (id, row') :: rest := by
              simp
            have hnd2 : (((ctx ++ [(id, row')]) ++ rest).map (fun p => p.1)).Nodup := by
              rw [hshape]
              have hids : ((ctx ++ (id, row') :: rest).map (fun p => p.1)) =
                  ((ctx ++ (id, row) :: rest).map (fun p => p.1)) := by
                simp
              rw [hids]
              exact hnd
            have hc2' : consistentRI ((ctx ++ [(id, row')]) ++ rest)
                (addRowIdxs (removeRowIdxs idxs id row) id row') := by
              rw [hshape]
              exact hc2
            obtain ⟨hcf, hwff, hidsf⟩ :=
              ih (ctx ++ [(id, row')]) (addRowIdxs (removeRowIdxs idxs id row) id row')
                m r0 i0 hwf2 hnd2 hc2' hrec
            refine ⟨?_, hwff, ?_⟩
            · have hshape2 : (ctx ++ [(id, row')]) ++ r0 = ctx ++ (id, row') :: r0 := by
                simp
              rw [hshape2] at hcf
              exact hcf
            · simp [hidsf]

theorem deleteGo_ok_spec (wh : Option Pred) (rest : List (Nat × Row)) :
    ∀ (ctx : List (Nat × Row)) (idxs : List (String × Index))
      (n : Nat) (rest' : List (Nat × Row)) (idxs' : List (String × Index)),
      IdxsWF idxs →
      ((ctx ++ rest).map (fun p => p.1)).Nodup →
      consistentRI (ctx ++ rest) idxs →
      deleteGo wh rest idxs = (.ok n, rest', idxs') →
      consistentRI (ctx ++ rest') idxs' ∧ IdxsWF idxs' ∧
        List.Sublist rest' rest ∧
        (∀ i r, (i, r) ∈ rest' ↔ (i, r) ∈ rest ∧ evalWhere wh r = .ok false) := by
  induction rest with
  | nil =>
    intro ctx idxs n rest' idxs' hwf hnd hc h
    rw [deleteGo] at h
    obtain ⟨h1, h23⟩ := Prod.ext_iff.mp h
    obtain ⟨h2, h3⟩ := Prod.ext_iff.mp h23
    simp only at h1 h2 h3
    subst h2
    subst h3
    exact ⟨hc, hwf, List.Sublist.refl _, by simp⟩
  | cons hd rest ih =>
    obtain ⟨id, row⟩ := hd
    intro ctx idxs n rest' idxs' hwf hnd hc h
    rw [deleteGo] at h
    cases hev : evalWhere wh row with
    | error e =>
      rw [hev] at h
      simp only at h
      exact absurd (Prod.ext_iff.mp h).1 (by simp)
    | ok b =>
      rw [hev] at h
      cases b with
      | false =>
        simp only at h
        rcases hrec : deleteGo wh rest idxs with ⟨res, r0, i0⟩
        rw [hrec] at h
        simp only at h
        obtain ⟨h1, h23⟩ := Prod.ext_iff.mp h
        obtain ⟨h2, h3⟩ := Prod.ext_iff.mp h23
        simp only at h1 h2 h3
        subst h1
        subst h2
        subst h3
        have hshape : (ctx ++ [(id, row)]) ++ rest = ctx ++ (id, row) :: rest := by
          simp
        have hnd' : (((ctx ++ [(id, row)]) ++ rest).map (fun p => p.1)).Nodup := by
          rw [hshape]
          exact hnd
        have hc' : consistentRI ((ctx ++ [(id, row)]) ++ rest) idxs := by
          rw [hshape]
          exact hc
        obtain ⟨hcf, hwff, hsub, hmem⟩ :=
          ih (ctx ++ [(id, row)]) idxs n r0 i0 hwf hnd' hc' hrec
        refine ⟨?_, hwff, List.Sublist.cons₂ _ hsub, ?_⟩
        · have hshape2 : (ctx ++ [(id, row)]) ++ r0 = ctx ++ (id, row) :: r0 := by
            simp
          rw [hshape2] at hcf
          exact hcf
        · intro i r
          simp only [List.mem_cons]
          constructor
          · rintro (heq | hmem0)
            · rw [Prod.mk.injEq] at heq
              obtain ⟨rfl, rfl⟩ := heq
              exact ⟨Or.inl rfl, hev⟩
            · obtain ⟨hm, hf⟩ := (hmem i r).mp hmem0
              exact ⟨Or.inr hm, hf⟩
          · rintro ⟨heq | hmem0, hf⟩
            · exact Or.inl heq
            · exact Or.inr ((hmem i r).mpr ⟨hmem0, hf⟩)
      | true =>
        simp only at h
        rcases hrec : deleteGo wh rest (removeRowIdxs idxs id row) with ⟨res, r0, i0⟩
        rw [hrec] at h
        cases res with
        | error e =>
          simp only at h
          exact absurd (Prod.ext_iff.mp h).1 (by simp)
        | ok m =>
          simp only at h
          obtain ⟨h1, h23⟩ := Prod.ext_iff.mp h
          obtain ⟨h2, h3⟩ := Prod.ext_iff.mp h23
          simp only at h1 h2 h3
          subst h2
          subst h3
          have hid : ∀ r, (id, r) ∉ ctx ++ rest := not_mem_of_nodup_ids hnd
          have hwf1 : IdxsWF (removeRowIdxs idxs id row) := IdxsWF_removeRowIdxs hwf
          have hc1 : consistentRI (ctx ++ rest) (removeRowIdxs idxs id row) :=
            consistentRI_remove_row hwf hc (fun i r => mem_middle_iff i r) hid
          have hnd1 : ((ctx ++ rest).map (fun p => p.1)).Nodup := by
            refine List.Nodup.sublist ?_ hnd
            refine List.Sublist.map _ ?_
            exact List.Sublist.append_left (List.sublist_cons_self _ _) _
          obtain ⟨hcf, hwff, hsub, hmem⟩ :=
            ih ctx (removeRowIdxs idxs id row) m r0 i0 hwf1 hnd1 hc1 hrec
          refine ⟨hcf, hwff, hsub.trans (List.sublist_cons_self _ _), ?_⟩
          intro i r
          rw [hmem i r]
          simp only [List.mem_cons]
          constructor
          · rintro ⟨hm, hf⟩
            exact ⟨Or.inr hm, hf⟩
          · rintro ⟨heq | hm, hf⟩
            · rw [Prod.mk.injEq] at heq
              obtain ⟨rfl, rfl⟩ := heq
              rw [hev] at hf
              exact absurd (Except.ok.inj hf) (by simp)
            · exact ⟨hm, hf⟩

theorem update_ok_spec {t : Table} {vals : Row} {wh : Option Pred} {n : Nat} {t' : Table}
    (hwf : t.wf) (hc : t.consistent)
    (h : t.update vals wh = (.ok n, t')) :
    t'.consistent ∧ t'.wf ∧ t'.next_id = t.next_id ∧
      t'.rows.map (fun p => p.1) = t.rows.map (fun p => p.1) := by
  obtain ⟨hnd, hlt, hiwf⟩ := hwf
  rcases hgo : updateGo t.columns vals wh t.rows t.indexes with ⟨res, rows', idxs'⟩
  rw [Table.update, hgo] at h
  simp only at h
  obtain ⟨h1, h2⟩ := Prod.ext_iff.mp h
  simp only at h1 h2
  subst h1
  subst h2
  obtain ⟨hcf, hwff, hids⟩ :=
    updateGo_ok_spec t.columns vals wh t.rows [] t.indexes n rows' idxs'
      hiwf (by simpa using hnd) (by simpa using hc) hgo
  refine ⟨by simpa using hcf, ⟨?_, ?_, hwff⟩, rfl, hids⟩
  · simpa [hids] using hnd
  · intro p hp
    have hmem : p.1 ∈ rows'.map (fun p => p.1) := List.mem_map.mpr ⟨p, hp, rfl⟩
    rw [hids] at hmem
    obtain ⟨q, hq, hq1⟩ := List.mem_map.mp hmem
    rw [← hq1]
    exact hlt q hq

theorem delete_ok_spec {t : Table} {wh : Option Pred} {n : Nat} {t' : Table}
    (hwf : t.wf) (hc : t.consistent)
    (h : t.delete wh = (.ok n, t')) :
    t'.consistent ∧ t'.wf ∧ t'.next_id = t.next_id ∧ t'.columns = t.columns ∧
      (∀ i r, (i, r) ∈ t'.rows ↔ (i, r) ∈ t.rows ∧ evalWhere wh r = .ok false) := by
  obtain ⟨hnd, hlt, hiwf⟩ := hwf
  rcases hgo : deleteGo wh t.rows t.indexes with ⟨res, rows', idxs'⟩
  rw [Table.delete, hgo] at h
  simp only at h
  obtain ⟨h1, h2⟩ := Prod.ext_iff.mp h
  simp only at h1 h2
  subst h1
  subst h2
  obtain ⟨hcf, hwff, hsub, hmem⟩ :=
    deleteGo_ok_spec wh t.rows [] t.indexes n rows' idxs'
      hiwf (by simpa using hnd) (by simpa using hc) hgo
  refine ⟨by simpa using hcf, ⟨?_, ?_, hwff⟩, rfl, rfl, hmem⟩
  · exact List.Nodup.sublist (List.Sublist.map _ hsub) hnd
  · intro p hp
    exact hlt p (hsub.mem hp)

/-! ## Lemmas about the insert validation loop -/

theorem pyIntOf_error_shape {v : PyVal} {e : Err} (h : pyIntOf v = .error e) :
    ∃ s, e = .typeConversion s := by
  cases v with
  | str s =>
    rw [pyIntOf] at h
    cases hp : parseIntStr s with
    | some n =>
      rw [hp] at h
      exact absurd h (by simp)
    | none =>
      rw [hp] at h
      exact ⟨s, (Except.error.inj h).symm⟩
  | null => exact ⟨"None", (Except.error.inj h).symm⟩
  | int n => exact absurd h (by simp [pyIntOf])
  | float q => exact absurd h (by simp [pyIntOf])
  | bool b => exact absurd h (by simp [pyIntOf])

theorem pyFloatOf_error_shape {v : PyVal} {e : Err} (h : pyFloatOf v = .error e) :
    ∃ s, e = .typeConversion s := by
  cases v with
  | str s =>
    rw [pyFloatOf] at h
    cases hp : parseFloatStr s with
    | some n =>
      rw [hp] at h
      exact absurd h (by simp)
    | none =>
      rw [hp] at h
      exact ⟨s, (Except.error.inj h).symm⟩
  | null => exact ⟨"None", (Except.error.inj h).symm⟩
  | int n => exact absurd h (by simp [pyFloatOf])
  | float q => exact absurd h (by simp [pyFloatOf])
  | bool b => exact absurd h (by simp [pyFloatOf])

theorem validate_error_shape {c : Column} {v : PyVal} {e : Err}
    (h : c.validate v = .error e) :
    (∃ s, e = .nullConstraint s) ∨ (∃ s, e = .typeConversion s) := by
  rw [Column.validate] at h
  by_cases hn : v = PyVal.null
  · rw [if_pos hn] at h
    by_cases hnn : c.not_null = true
    · rw [if_pos hnn] at h
      exact Or.inl ⟨c.name, (Except.error.inj h).symm⟩
    · rw [if_neg hnn] at h
      exact absurd h (by simp)
  · rw [if_neg hn] at h
    cases hdt : c.data_type with
    | INTEGER =>
      rw [hdt] at h
      cases hi : pyIntOf v with
      | ok n =>
        rw [hi] at h
        exact absurd h (by simp)
      | error e' =>
        rw [hi] at h
        obtain ⟨s, rfl⟩ := pyIntOf_error_shape hi
        exact Or.inr ⟨s, (Except.error.inj h).symm ▸ rfl⟩
    | TEXT =>
      rw [hdt] at h
      exact absurd h (by simp)
    | FLOAT =>
      rw [hdt] at h
      cases hi : pyFloatOf v with
      | ok n =>
        rw [hi] at h
        exact absurd h (by simp)
      | error e' =>
        rw [hi] at h
        obtain ⟨s, rfl⟩ := pyFloatOf_error_shape hi
        exact Or.inr ⟨s, (Except.error.inj h).symm ▸ rfl⟩
    | BOOLEAN =>
      rw [hdt] at h
      exact absurd h (by simp)

theorem insertLoop_error_shape {idxs : List (String × Index)} {vals : Row}
    {cols : List Column} {e : Err}
    (h : insertLoop idxs vals cols = .error e) :
    (∃ s, e = .nullConstraint s) ∨ (∃ s, e = .typeConversion s) ∨
    (∃ s v, e = .duplicateValue s v) := by
  induction cols with
  | nil => exact absurd h (by simp [insertLoop])
  | cons c cs ih =>
    rw [insertLoop] at h
    cases hv : c.validate (rowGet vals c.name) with
    | error e' =>
      rw [hv] at h
      rcases validate_error_shape hv with h1 | h1
      · exact Or.inl ((Except.error.inj h).symm ▸ h1)
      · exact Or.inr (Or.inl ((Except.error.inj h).symm ▸ h1))
    | ok v =>
      rw [hv] at h
      simp only at h
      by_cases hd : insDupErr idxs c v = true
      · rw [if_pos hd] at h
        exact Or.inr (Or.inr ⟨c.name, v, (Except.error.inj h).symm⟩)
      · rw [if_neg hd] at h
        cases hl : insertLoop idxs vals cs with
        | error e' =>
          rw [hl] at h
          simp only at h
          exact ih ((Except.error.inj h) ▸ hl)
        | ok r =>
          rw [hl] at h
          exact absurd h (by simp)

theorem insertLoop_keys {idxs : List (String × Index)} {vals : Row}
    {cols : List Column} {row : Row}
    (h : insertLoop idxs vals cols = .ok row) :
    row.map (fun p => p.1) = cols.map (fun c => c.name) := by
  induction cols generalizing row with
  | nil =>
    rw [insertLoop] at h
    rw [← Except.ok.inj h]
    rfl
  | cons c cs ih =>
    rw [insertLoop] at h
    cases hv : c.validate (rowGet vals c.name) with
    | error e' =>
      rw [hv] at h
      exact absurd h (by simp)
    | ok v =>
      rw [hv] at h
      simp only at h
      by_cases hd : insDupErr idxs c v = true
      · rw [if_pos hd] at h
        exact absurd h (by simp)
      · rw [if_neg hd] at h
        cases hl : insertLoop idxs vals cs with
        | error e' =>
          rw [hl] at h
          exact absurd h (by simp)
        | ok r =>
          rw [hl] at h
          simp only at h
          rw [← Except.ok.inj h]
          simp [ih hl]

theorem insertLoop_ok_of {idxs : List (String × Index)} {vals : Row}
    {cols : List Column}
    (h : ∀ c ∈ cols, ∃ v, c.validate (rowGet vals c.name) = .ok v ∧
      insDupErr idxs c v = false) :
    ∃ row, insertLoop idxs vals cols = .ok row := by
  induction cols with
  | nil => exact ⟨[], rfl⟩
  | cons c cs ih =>
    obtain ⟨v, hv, hd⟩ := h c (by simp)
    obtain ⟨row, hrow⟩ := ih (fun d hd' => h d (by simp [hd']))
    refine ⟨(c.name, v) :: row, ?_⟩
    rw [insertLoop, hv]
    simp only
    rw [if_neg (by simp [hd]), hrow]

theorem insertLoop_dup_error {idxs : List (String × Index)} {vals : Row}
    {cols : List Column}
    (hval : ∀ c ∈ cols, ∃ v, c.validate (rowGet vals c.name) = .ok v)
    (hdup : ∃ c ∈ cols, ∀ v, c.validate (rowGet vals c.name) = .ok v →
      insDupErr idxs c v = true) :
    ∃ cn vv, insertLoop idxs vals cols = .error (.duplicateValue cn vv) := by
  induction cols with
  | nil => simp at hdup
  | cons c cs ih =>
    obtain ⟨v, hv⟩ := hval c (by simp)
    by_cases hd : insDupErr idxs c v = true
    · refine ⟨c.name, v, ?_⟩
      rw [insertLoop, hv]
      simp only
      rw [if_pos hd]
    · obtain ⟨c', hc', hdup'⟩ := hdup
      rcases List.mem_cons.mp hc' with rfl | hc'
      · exact absurd (hdup' v hv) hd
      · obtain ⟨cn, vv, hloop⟩ :=
          ih (fun d hd' => hval d (by simp [hd'])) ⟨c', hc', hdup'⟩
        refine ⟨cn, vv, ?_⟩
        rw [insertLoop, hv]
        simp only
        rw [if_neg hd, hloop]

/-! ## Lemmas about row dict operations and projections -/

theorem rowSet_not_mem {r : Row} {k : String} {v : PyVal}
    (h : ∀ p ∈ r, p.1 ≠ k) : rowSet r k v = r ++ [(k, v)] := by
  rw [rowSet, if_neg]
  rw [Option.isSome_iff_exists]
  rintro ⟨p, hp⟩
  have hm := List.mem_of_find?_eq_some hp
  have hk := List.find?_some hp
  rw [beq_iff_eq] at hk
  exact h p hm hk

theorem rowGet_cons {q : String × PyVal} {r : Row} {k : String} :
    rowGet (q :: r) k = (if q.1 == k then q.2 else rowGet r k) := by
  by_cases h : q.1 == k <;> simp [rowGet, find?_cons_eq, h]

theorem foldl_rowSet_map {α : Type} (f : α → String) (g : α → PyVal) :
    ∀ (xs : List α) (acc : Row),
    (acc.map (fun p => p.1) ++ xs.map f).Nodup →
    xs.foldl (fun acc x => rowSet acc (f x) (g x)) acc
      = acc ++ xs.map (fun x => (f x, g x)) := by
  intro xs
  induction xs with
  | nil =>
    intro acc hnd
    simp
  | cons x xs ih =>
    intro acc hnd
    have hx : ∀ p ∈ acc, p.1 ≠ f x := by
      intro p hp hpx
      rw [List.map_cons, List.nodup_append] at hnd
      exact hnd.2.2 (List.mem_map.mpr ⟨p, hp, hpx⟩) (by simp)
    rw [List.foldl_cons, rowSet_not_mem hx]
    have hnd' : (((acc ++ [(f x, g x)]).map (fun p => p.1)) ++ xs.map f).Nodup := by
      rw [List.map_append]
      have hshape : (acc.map (fun p => p.1) ++ [(f x, g x)].map (fun p => p.1))
          ++ xs.map f = acc.map (fun p => p.1) ++ (f x :: xs.map f) := by
        simp
      rw [hshape]
      simpa using hnd
    rw [ih (acc ++ [(f x, g x)]) hnd']
    simp

theorem rowGet_map_assoc {α : Type} (f : α → String) (g : α → PyVal) :
    ∀ (xs : List α) (x : α), x ∈ xs → (xs.map f).Nodup →
    rowGet (xs.map (fun a => (f a, g a))) (f x) = g x := by
  intro xs
  induction xs with
  | nil =>
    intro x hx
    exact absurd hx (List.not_mem_nil x)
  | cons a xs ih =>
    intro x hx hnd
    rcases List.mem_cons.mp hx with rfl | hx
    · rw [List.map_cons, rowGet_cons, if_pos (by simp)]
    · rw [List.map_cons, rowGet_cons]
      have hne : (f a == f x) = false := by
        rw [List.map_cons, List.nodup_cons] at hnd
        rw [beq_eq_false_iff_ne]
        intro hc
        exact hnd.1 (hc ▸ List.mem_map.mpr ⟨x, hx, rfl⟩)
      rw [hne]
      simp only [Bool.false_eq_true, if_false]
      exact ih x hx (by rw [List.map_cons, List.nodup_cons] at hnd; exact hnd.2)

theorem rowGet_append_right_of_not_mem {X : Row} {k : String} {v : PyVal}
    (h : ∀ p ∈ X, p.1 ≠ k) : rowGet (X ++ [(k, v)]) k = v := by
  induction X with
  | nil => simp [rowGet, find?_cons_eq]
  | cons q X ih =>
    rw [List.cons_append, rowGet_cons,
      if_neg (by simp [h q (by simp)]), ih (fun p hp => h p (by simp [hp]))]

theorem rowGet_append_left_of_mem {X Y : Row} {k : String}
    (h : ∃ p ∈ X, p.1 = k) : rowGet (X ++ Y) k = rowGet X k := by
  induction X with
  | nil =>
    obtain ⟨p, hp, _⟩ := h
    exact absurd hp (List.not_mem_nil p)
  | cons q X ih =>
    by_cases hq : (q.1 == k) = true
    · rw [List.cons_append, rowGet_cons, if_pos hq, rowGet_cons, if_pos hq]
    · rw [List.cons_append, rowGet_cons, if_neg (by simp [hq]),
        rowGet_cons, if_neg (by simp [hq])]
      obtain ⟨p, hp, hpk⟩ := h
      rcases List.mem_cons.mp hp with rfl | hp
      · rw [hpk] at hq
        simp at hq
      · exact ih ⟨p, hp, hpk⟩

theorem rowGet_filter_declared {vals : Row} {names : List String} {k : String}
    (hk : k ∈ names) :
    rowGet (vals.filter (fun p => names.contains p.1)) k = rowGet vals k := by
  induction vals with
  | nil => simp
  | cons q vals ih =>
    by_cases hq : (q.1 == k) = true
    · have hkept : (names.contains q.1) = true := by
        rw [beq_iff_eq] at hq
        rw [hq]
        exact List.elem_eq_true_of_mem hk
      rw [List.filter_cons, if_pos hkept, rowGet_cons, if_pos hq, rowGet_cons, if_pos hq]
    · rw [List.filter_cons]
      by_cases hkept : (names.contains q.1) = true
      · rw [if_pos hkept, rowGet_cons, if_neg (by simp [hq]),
          rowGet_cons, if_neg (by simp [hq])]
        exact ih
      · rw [if_neg hkept, rowGet_cons, if_neg (by simp [hq])]
        exact ih

/-! ## Lemmas about select -/

theorem selectGo_ok_spec {cols : List String} {wh : Option Pred} :
    ∀ {rows : List (Nat × Row)} {res : List Row},
    selectGo cols wh rows = .ok res →
    res = rows.filterMap (fun p =>
      match evalWhere wh p.2 with
      | .ok true => some (rowSet (buildProj cols p.2) "_row_id" (.int p.1))
      | _ => Option.none) := by
  intro rows
  induction rows with
  | nil =>
    intro res h
    rw [selectGo] at h
    rw [← Except.ok.inj h]
    rfl
  | cons hd rest ih =>
    obtain ⟨id, row⟩ := hd
    intro res h
    rw [selectGo] at h
    cases hev : evalWhere wh row with
    | error e =>
      rw [hev] at h
      exact absurd h (by simp)
    | ok b =>
      rw [hev] at h
      cases b with
      | false =>
        simp only at h
        rw [List.filterMap_cons]
        simp only [hev]
        exact ih h
      | true =>
        simp only at h
        cases hrec : selectGo cols wh rest with
        | error e =>
          rw [hrec] at h
          exact absurd h (by simp)
        | ok rs =>
          rw [hrec] at h
          simp only at h
          rw [← Except.ok.inj h, List.filterMap_cons]
          simp only [hev]
          rw [ih hrec]

/-! ## Lemmas about the C10 insert/update behaviour -/

theorem validate_null_ok {c : Column} {v : PyVal}
    (h : c.validate PyVal.null = .ok v) : v = PyVal.null := by
  rw [Column.validate, if_pos rfl] at h
  by_cases hnn : c.not_null = true
  · rw [if_pos hnn] at h
    exact absurd h (by simp)
  · rw [if_neg hnn] at h
    exact (Except.ok.inj h).symm

theorem insertLoop_null_missing {idxs : List (String × Index)} {vals : Row}
    {cols : List Column} {row : Row}
    (h : insertLoop idxs vals cols = .ok row) :
    ∀ c ∈ cols, rowGet vals c.name = PyVal.null → rowGet row c.name = PyVal.null := by
  induction cols generalizing row with
  | nil =>
    intro c hc
    exact absurd hc (List.not_mem_nil c)
  | cons c0 cs ih =>
    rw [insertLoop] at h
    cases hv : c0.validate (rowGet vals c0.name) with
    | error e =>
      rw [hv] at h
      exact absurd h (by simp)
    | ok v0 =>
      rw [hv] at h
      simp only at h
      by_cases hd : insDupErr idxs c0 v0 = true
      · rw [if_pos hd] at h
        exact absurd h (by simp)
      · rw [if_neg hd] at h
        cases hl : insertLoop idxs vals cs with
        | error e =>
          rw [hl] at h
          exact absurd h (by simp)
        | ok r0 =>
          rw [hl] at h
          simp only at h
          rw [← Except.ok.inj h]
          intro c hc hnull
          rw [rowGet_cons]
          by_cases hname : (c0.name == c.name) = true
          · rw [if_pos hname]
            rw [beq_iff_eq] at hname
            rw [hname, hnull] at hv
            exact validate_null_ok hv
          · rw [Bool.not_eq_true] at hname
            simp only [hname, Bool.false_eq_true, if_false]
            rcases List.mem_cons.mp hc with rfl | hc'
            · simp at hname
            · exact ih hl c hc' hnull

theorem applyAssigns_append {cols : List Column} {idxs : List (String × Index)}
    {id : Nat} :
    ∀ (pre rest : Row) (row : Row),
    (applyAssigns cols idxs id pre row).1 = Option.none →
    applyAssigns cols idxs id (pre ++ rest) row
      = applyAssigns cols idxs id rest (applyAssigns cols idxs id pre row).2 := by
  intro pre
  induction pre with
  | nil =>
    intro rest row _
    rfl
  | cons a pre ih =>
    obtain ⟨k0, v0⟩ := a
    intro rest row h
    cases hf : findCol cols k0 with
    | none =>
      rw [applyAssigns, hf] at h
      simp at h
    | some c =>
      cases hv : c.validate v0 with
      | error e =>
        rw [applyAssigns, hf] at h
        simp only at h
        rw [hv] at h
        simp at h
      | ok vv =>
        by_cases hd : updDupErr idxs id c vv = true
        · rw [applyAssigns, hf] at h
          simp only at h
          rw [hv] at h
          simp only at h
          rw [if_pos hd] at h
          simp at h
        · have hstep : applyAssigns cols idxs id ((k0, v0) :: pre) row
              = applyAssigns cols idxs id pre (rowSet row k0 vv) := by
            rw [applyAssigns, hf]
            simp only
            rw [hv]
            simp only
            rw [if_neg hd]
          have hstep2 : applyAssigns cols idxs id (((k0, v0) :: pre) ++ rest) row
              = applyAssigns cols idxs id (pre ++ rest) (rowSet row k0 vv) := by
            rw [List.cons_append, applyAssigns, hf]
            simp only
            rw [hv]
            simp only
            rw [if_neg hd]
          rw [hstep2, hstep, ← hstep]
          rw [hstep] at h
          rw [hstep]
          exact ih rest (rowSet row k0 vv) h

theorem updateGo_first_match_unknown {cols : List Column} {k : String} {v : PyVal}
    {pre post : Row} {wh : Option Pred}
    (hk : findCol cols k = Option.none) :
    ∀ (A : List (Nat × Row)) (idxs : List (String × Index)) (id₀ : Nat)
      (row₀ : Row) (B : List (Nat × Row)),
    (∀ p ∈ A, evalWhere wh p.2 = .ok false) →
    evalWhere wh row₀ = .ok true →
    (applyAssigns cols (removeRowIdxs idxs id₀ row₀) id₀ pre row₀).1 = Option.none →
    (updateGo cols (pre ++ (k, v) :: post) wh (A ++ (id₀, row₀) :: B) idxs).1
      = .error (.unknownColumn k) := by
  intro A
  induction A with
  | nil =>
    intro idxs id₀ row₀ B hA hev hpre
    rw [List.nil_append, updateGo, hev]
    simp only
    rw [applyAssigns_append pre ((k, v) :: post) row₀ hpre]
    rw [applyAssigns, hk]
  | cons a A ih =>
    obtain ⟨id1, row1⟩ := a
    intro idxs id₀ row₀ B hA hev hpre
    rw [List.cons_append, updateGo, hA (id1, row1) (by simp)]
    simp only
    rcases hrec : updateGo cols (pre ++ (k, v) :: post) wh (A ++ (id₀, row₀) :: B) idxs
      with ⟨res, r0, i0⟩
    have hres := ih idxs id₀ row₀ B (fun p hp => hA p (by simp [hp])) hev hpre
    rw [hrec] at hres
    simp only at hres
    exact hres

/-! ## Lemmas about statement trimming -/

theorem dropWhile_append_single_false {α : Type} {p : α → Bool} {c : α}
    (h : p c = false) (l : List α) :
    (l ++ [c]).dropWhile p = l.dropWhile p ++ [c] := by
  induction l with
  | nil => simp [List.dropWhile, h]
  | cons a l ih =>
    by_cases ha : p a = true
    · simp [List.dropWhile, ha, ih]
    · simp [List.dropWhile, ha]

theorem rstripL_append_false {p : Char → Bool} {c : Char} (h : p c = false)
    (l : List Char) : rstripL p (l ++ [c]) = l ++ [c] := by
  rw [rstripL, List.reverse_append]
  simp only [List.reverse_cons, List.reverse_nil, List.nil_append, List.singleton_append]
  rw [List.dropWhile_cons_of_neg (by simp [h])]
  simp

theorem rstripL_append_true {p : Char → Bool} {c : Char} (h : p c = true)
    (l : List Char) : rstripL p (l ++ [c]) = rstripL p l := by
  rw [rstripL, List.reverse_append]
  simp only [List.reverse_cons, List.reverse_nil, List.nil_append, List.singleton_append]
  rw [List.dropWhile_cons_of_pos (by simp [h])]
  rfl

theorem stripStatement_data (s : String) :
    stripStatement s = ⟨stripStmtData s.data⟩ := rfl

theorem stripStmtData_semi (l : List Char) :
    stripStmtData (l ++ [';']) = rstripL (fun c => c == ';') (lstripL isPySpace l) := by
  rw [stripStmtData, lstripL, dropWhile_append_single_false (by decide),
    rstripL_append_false (by decide), rstripL_append_true (by decide)]
  rfl

theorem head?_dropWhile_false {α : Type} {p : α → Bool} :
    ∀ (l : List α) (c : α), (l.dropWhile p).head? = some c → p c = false := by
  intro l
  induction l with
  | nil =>
    intro c h
    simp at h
  | cons a l ih =>
    intro c h
    by_cases ha : p a = true
    · rw [List.dropWhile_cons_of_pos ha] at h
      exact ih c h
    · rw [List.dropWhile_cons_of_neg ha] at h
      rw [Bool.not_eq_true] at ha
      rw [← Option.some.inj h]
      exact ha

/-! ## Lemmas about the join evaluator -/

theorem filterMap_ite {α β : Type} (g : α → Bool) (h : α → β) (l : List α) :
    l.filterMap (fun a => if g a then some (h a) else Option.none)
      = (l.filter g).map h := by
  induction l with
  | nil => rfl
  | cons a l ih =>
    by_cases ha : g a = true
    · rw [List.filterMap_cons, List.filter_cons]
      simp only [ha, if_true]
      rw [List.map_cons, ih]
    · rw [List.filterMap_cons, List.filter_cons]
      simp only [ha, Bool.false_eq_true, if_false]
      rw [ih]

theorem allPairs_cons (lr : Row) (ls rs : List Row) :
    allPairs (lr :: ls) rs = rs.map (fun r => (lr, r)) ++ allPairs ls rs := by
  simp [allPairs]

theorem joinRows_eq (ltn rtn jlt jlc jrt jrc : String) (cols : List (String × String))
    (leftRows rightRows : List Row) :
    joinRows ltn rtn jlt jlc jrt jrc cols leftRows rightRows =
      ((allPairs leftRows rightRows).filter
        (fun pr => joinMatches ltn rtn jlt jlc jrt jrc pr.1 pr.2)).map
        (fun pr => buildJoinRow ltn cols pr.1 pr.2) := by
  induction leftRows with
  | nil => rfl
  | cons lr ls ih =>
    rw [allPairs_cons, List.filter_append, List.map_append, ← ih]
    rw [joinRows, List.map_cons, List.flatten_cons]
    rw [filterMap_ite (fun rr => joinMatches ltn rtn jlt jlc jrt jrc lr rr)
      (fun rr => buildJoinRow ltn cols lr rr) rightRows]
    rw [List.filter_map, List.map_map]
    rfl

/-! ## Remaining auxiliary lemmas -/

theorem lookupIdx_some {idxs : List (String × Index)} {c : String} {idx : Index}
    (h : lookupIdx idxs c = some idx) :
    ∃ p ∈ idxs, p.1 = c ∧ p.2 = idx := by
  rw [lookupIdx] at h
  cases hf : idxs.find? (fun p => p.1 == c) with
  | none =>
    rw [hf] at h
    exact absurd h (by simp)
  | some p =>
    rw [hf] at h
    refine ⟨p, List.mem_of_find?_eq_some hf, ?_, Option.some.inj h⟩
    have := List.find?_some hf
    rwa [beq_iff_eq] at this

theorem insertLoop_filter_eq {idxs : List (String × Index)} {vals : Row}
    {cols : List Column} {names : List String}
    (hsub : ∀ c ∈ cols, c.name ∈ names) :
    insertLoop idxs (vals.filter (fun p => names.contains p.1)) cols
      = insertLoop idxs vals cols := by
  induction cols with
  | nil => rfl
  | cons c cs ih =>
    rw [insertLoop, insertLoop, rowGet_filter_declared (hsub c (by simp))]
    cases hv : c.validate (rowGet vals c.name) with
    | error e => rfl
    | ok v =>
      simp only
      by_cases hd : insDupErr idxs c v = true
      · rw [if_pos hd, if_pos hd]
      · rw [if_neg hd, if_neg hd, ih (fun d hd' => hsub d (by simp [hd']))]

theorem buildProj_eq {cols : List String} {row : Row} (hnd : cols.Nodup) :
    buildProj cols row = cols.map (fun c => (c, rowGet row c)) := by
  have h := foldl_rowSet_map (fun c => c) (fun c => rowGet row c) cols []
    (by simpa using hnd)
  simpa [buildProj] using h

theorem update_keeps_next_id (t : Table) (vals : Row) (wh : Option Pred) :
    ((t.update vals wh).2).next_id = t.next_id := by
  rcases hgo : updateGo t.columns vals wh t.rows t.indexes with ⟨res, a, b⟩
  rw [Table.update, hgo]

theorem delete_keeps_next_id (t : Table) (wh : Option Pred) :
    ((t.delete wh).2).next_id = t.next_id := by
  rcases hgo : deleteGo wh t.rows t.indexes with ⟨res, a, b⟩
  rw [Table.delete, hgo]

/-! ## Claim theorems -/

/-- C1 (code_bug): UPDATE is not atomic in the code. On the two-row
table `exTableU` (unique column `a` holding 1 and 2), `UPDATE ... SET
a = 3` fails with `DuplicateValue` on the second row, yet afterwards
the first row has already been changed to `a = 3` and the index has
lost the entries for both old values: the post-failure state differs
from the pre-statement state, contradicting the mandated
whole-statement atomicity. -/
theorem update_partial_application_bug :
    (Table.update exTableU [("a", PyVal.int 3)] Option.none).1
        = .error (.duplicateValue "a" (PyVal.int 3)) ∧
    (Table.update exTableU [("a", PyVal.int 3)] Option.none).2.rows
        = [(1, [("a", PyVal.int 3)]), (2, [("a", PyVal.int 2)])] ∧
    (Table.update exTableU [("a", PyVal.int 3)] Option.none).2.indexes
        = [("a", [(PyVal.int 3, [1])])] ∧
    (Table.update exTableU [("a", PyVal.int 3)] Option.none).2 ≠ exTableU :=
  ⟨rfl, rfl, rfl, by decide⟩

/-- C2 (code_bug): the predicate compiler tries `=` before `>=`
(source dict order `=, !=, >, <, >=, <=`), so the clause `age >= 5`
is compiled as an `=` comparison on the bogus column name `"age >"` —
not as the `>=` comparison on `age` the claim requires — and a row
with `age = 7` consequently fails the filter although `7 >= 5`. -/
theorem where_two_char_op_misparsed :
    parseWhere "age >= 5" = .ok ⟨"age >", CmpOp.ceq, PyVal.int 5⟩ ∧
    (⟨"age >", CmpOp.ceq, PyVal.int 5⟩ : WherePred) ≠ ⟨"age", CmpOp.cge, PyVal.int 5⟩ ∧
    WherePred.eval ⟨"age >", CmpOp.ceq, PyVal.int 5⟩ [("age", PyVal.int 7)] = .ok false ∧
    WherePred.eval ⟨"age", CmpOp.cge, PyVal.int 5⟩ [("age", PyVal.int 7)] = .ok true :=
  ⟨rfl, by decide, rfl, rfl⟩

/-- C7 counterexample: a statement text ending in two terminators
keeps none of them — `"SHOW TABLES;;"` trims to `"SHOW TABLES"`, not
to `"SHOW TABLES;"` as the claim states. -/
theorem strip_two_semicolons_cex :
    stripStatement "SHOW TABLES;;" = "SHOW TABLES" ∧
    stripStatement "SHOW TABLES;;" ≠ "SHOW TABLES;" :=
  ⟨rfl, by decide⟩

/-- C9 counterexample: nothing stops a user column from being declared
with the reserved name `_row_id`; on such a table (`exTableR`, one row
whose user value is 99) select returns the internal row identifier 1
in that field — the reserved field collides with and overwrites the
user-declared column. -/
theorem select_row_id_collision_cex :
    Table.select exTableR Option.none Option.none
        = .ok [[("_row_id", PyVal.int 1)]] ∧
    rowGet [("_row_id", PyVal.int 99)] "_row_id" = PyVal.int 99 ∧
    PyVal.int 1 ≠ PyVal.int 99 :=
  ⟨rfl, rfl, by decide⟩

/-- C10 counterexample: an update naming the undeclared column `b`
does not fail when no row matches (here: an empty table) — it returns
0 rows updated instead of raising UnknownColumn, so the claim's update
clause is false as stated. -/
theorem update_unknown_column_no_match_cex :
    (Table.update exTableE [("b", PyVal.int 1)] Option.none).1 = .ok 0 ∧
    (Table.update exTableE [("b", PyVal.int 1)] Option.none).1
        ≠ .error (.unknownColumn "b") :=
  ⟨rfl, by decide⟩

/-- C7 (amended, corrected): `parse_and_execute` strips surrounding
whitespace and then every trailing statement terminator (not just
one): appending a further `;` to a text already ending in `;` does not
change the trimmed result, and the trimmed result never ends in a
terminator. -/
theorem strip_trailing_semicolons (s : String) :
    stripStatement (s ++ ";;") = stripStatement (s ++ ";") ∧
    ∀ c, (stripStatement s).data.getLast? = some c → (c == ';') = false := by
  constructor
  · have h1 : (s ++ ";;").data = (s.data ++ [';']) ++ [';'] := by
      rw [String.data_append]
      simp
    have h2 : (s ++ ";").data = s.data ++ [';'] := by
      rw [String.data_append]
    rw [stripStatement_data, stripStatement_data, h1, h2,
      stripStmtData_semi (s.data ++ [';']), stripStmtData_semi s.data]
    rw [lstripL, dropWhile_append_single_false (by decide) s.data,
      rstripL_append_true (by decide)]
    rfl
  · intro c hc
    have hc' : (stripStmtData s.data).getLast? = some c := hc
    rw [stripStmtData, rstripL, List.getLast?_reverse] at hc'
    exact head?_dropWhile_false _ c hc'

/-- Closed instance of `strip_trailing_semicolons` at a concrete
statement text. -/
theorem strip_trailing_semicolons_witness :
    stripStatement ("SHOW TABLES" ++ ";;") = stripStatement ("SHOW TABLES" ++ ";") ∧
    ('S' == ';') = false :=
  ⟨(strip_trailing_semicolons "SHOW TABLES").1,
   (strip_trailing_semicolons "SHOW TABLES").2 'S' (by decide)⟩

/-- C3: an insert all of whose column validations succeed and whose
value for some indexed unique/primary-key column validates to a
non-null value already present in that column's index fails with
`DuplicateValue`, and the returned table — row store, every index and
the next-id counter — is exactly the table before the call. -/
theorem insert_duplicate_rejected (t : Table) (vals : Row)
    (hval : ∀ c ∈ t.columns, ∃ v, c.validate (rowGet vals c.name) = .ok v)
    (hdup : ∃ c ∈ t.columns, (c.unique || c.primary_key) = true ∧
       ∃ idx, lookupIdx t.indexes c.name = some idx ∧
       ∃ v, c.validate (rowGet vals c.name) = .ok v ∧ v ≠ PyVal.null ∧
         Index.find idx v ≠ []) :
    (∃ cn vv, (t.insert vals).1 = .error (.duplicateValue cn vv)) ∧
    (t.insert vals).2 = t := by
  have hdup' : ∃ c ∈ t.columns, ∀ v, c.validate (rowGet vals c.name) = .ok v →
      insDupErr t.indexes c v = true := by
    obtain ⟨c, hc, hu, idx, hidx, v, hv, hnn, hfind⟩ := hdup
    refine ⟨c, hc, ?_⟩
    intro v' hv'
    have hveq : v' = v := Except.ok.inj (hv'.symm.trans hv)
    subst hveq
    rw [insDupErr, hidx]
    simp [hu, hnn, hfind]
  obtain ⟨cn, vv, hloop⟩ := insertLoop_dup_error hval hdup'
  rw [Table.insert, hloop]
  exact ⟨⟨cn, vv, rfl⟩, rfl⟩

/-- Closed instance of `insert_duplicate_rejected`: inserting a second
`a = 2` into `exTableU` fails and leaves the table untouched. -/
theorem insert_duplicate_rejected_witness :
    (∃ cn vv, (Table.insert exTableU [("a", PyVal.int 2)]).1
        = .error (.duplicateValue cn vv)) ∧
    (Table.insert exTableU [("a", PyVal.int 2)]).2 = exTableU :=
  insert_duplicate_rejected exTableU [("a", PyVal.int 2)]
    (by
      intro c hc
      have hc' : c = exColA := by
        simpa [exTableU] using hc
      subst hc'
      exact ⟨PyVal.int 2, rfl⟩)
    ⟨exColA, by simp [exTableU], by decide,
     [(PyVal.int 1, [1]), (PyVal.int 2, [2])], rfl,
     PyVal.int 2, rfl, by decide, by decide⟩

/-- C5: on a structurally well-formed table whose indexes agree with
its row store, every successful insert, update or delete preserves
that agreement — afterwards each index still maps every value to
exactly the identifiers of the rows holding it — together with the
structural invariants themselves. -/
theorem mutation_preserves_index_consistency (t : Table)
    (hwf : t.wf) (hc : t.consistent) :
    (∀ vals id t', t.insert vals = (.ok id, t') → t'.consistent ∧ t'.wf) ∧
    (∀ vals wh n t', t.update vals wh = (.ok n, t') → t'.consistent ∧ t'.wf) ∧
    (∀ wh n t', t.delete wh = (.ok n, t') → t'.consistent ∧ t'.wf) :=
  ⟨fun vals id t' h =>
     ⟨(insert_ok_spec hwf hc h).2.2.2.1, (insert_ok_spec hwf hc h).2.2.2.2.1⟩,
   fun vals wh n t' h =>
     ⟨(update_ok_spec hwf hc h).1, (update_ok_spec hwf hc h).2.1⟩,
   fun wh n t' h =>
     ⟨(delete_ok_spec hwf hc h).1, (delete_ok_spec hwf hc h).2.1⟩⟩

/-- Closed instance of `mutation_preserves_index_consistency`: after a
successful insert into the concrete table `exTableN`, the result is
still consistent and well-formed. -/
theorem mutation_preserves_index_consistency_witness :
    ((Table.insert exTableN [("a", PyVal.int 7)]).2).consistent ∧
    ((Table.insert exTableN [("a", PyVal.int 7)]).2).wf :=
  (mutation_preserves_index_consistency exTableN
      (by
        refine ⟨by decide, by decide, ?_⟩
        intro p hp
        simp [exTableN] at hp)
      (by
        intro p hp
        simp [exTableN, Table.consistent, consistentRI] at hp)).1
    [("a", PyVal.int 7)] 2 (Table.insert exTableN [("a", PyVal.int 7)]).2 rfl

/-- C4: row identifiers are assigned monotonically and never reused —
a successful insert returns the current next-id counter, which is
strictly above every stored row id, and bumps the counter; update and
delete never change the counter; and after a delete has removed every
row holding the to-be-inserted unique/primary-key values, re-inserting
(with all validations passing) succeeds and receives exactly the
pre-delete counter value, a fresh identifier strictly above every id
present before the delete. -/
theorem row_id_monotone_never_reused (t : Table) (hwf : t.wf) (hc : t.consistent) :
    (∀ vals id t', t.insert vals = (.ok id, t') →
       id = t.next_id ∧ t'.next_id = t.next_id + 1 ∧ ∀ p ∈ t.rows, p.1 < id) ∧
    (∀ vals wh, ((t.update vals wh).2).next_id = t.next_id) ∧
    (∀ wh, ((t.delete wh).2).next_id = t.next_id) ∧
    (∀ wh n t' vals, t.delete wh = (.ok n, t') →
       (∀ c ∈ t.columns, ∃ v, c.validate (rowGet vals c.name) = .ok v) →
       (∀ c ∈ t.columns, (c.unique || c.primary_key) = true →
          ∀ v, c.validate (rowGet vals c.name) = .ok v → v ≠ PyVal.null →
          ∀ i r, (i, r) ∈ t'.rows → pyEq (rowGet r c.name) v = false) →
       ∃ t'', t'.insert vals = (.ok t.next_id, t'') ∧
         ∀ p ∈ t.rows, p.1 < t.next_id) := by
  refine ⟨?_, fun vals wh => update_keeps_next_id t vals wh,
    fun wh => delete_keeps_next_id t wh, ?_⟩
  · intro vals id t' h
    obtain ⟨hid, hnext, _, _, _, _⟩ := insert_ok_spec hwf hc h
    refine ⟨hid, hnext, ?_⟩
    intro p hp
    rw [hid]
    exact hwf.2.1 p hp
  · intro wh n t' vals hdel hvals hgone
    obtain ⟨hc', hwf', hnid, hcols, hmem⟩ := delete_ok_spec hwf hc hdel
    have hloop : ∃ row, insertLoop t'.indexes vals t'.columns = .ok row := by
      apply insertLoop_ok_of
      intro c hcmem
      rw [hcols] at hcmem
      obtain ⟨v, hv⟩ := hvals c hcmem
      refine ⟨v, hv, ?_⟩
      by_cases hu : (c.unique || c.primary_key) = true
      · by_cases hvn : v = PyVal.null
        · simp [insDupErr, hvn]
        · cases hidx : lookupIdx t'.indexes c.name with
          | none => simp [insDupErr, hidx]
          | some idx =>
            have hfind : Index.find idx v = [] := by
              rw [List.eq_nil_iff_forall_not_mem]
              intro i hi
              obtain ⟨p, hp, hpn, hpi⟩ := lookupIdx_some hidx
              obtain ⟨r, hr, hpv, hnn⟩ := (hc' p hp v i).mp (by rw [hpi]; exact hi)
              have hfalse := hgone c hcmem hu v hv hvn i r hr
              rw [hpn] at hpv
              rw [hpv] at hfalse
              exact absurd hfalse (by simp)
            simp [insDupErr, hidx, hfind]
      · simp [insDupErr, hu]
    obtain ⟨row, hrow⟩ := hloop
    have h1 : (t'.insert vals).1 = Except.ok t'.next_id := by
      rw [Table.insert, hrow]
    refine ⟨(t'.insert vals).2, ?_, ?_⟩
    · rw [← hnid]
      exact Prod.ext_iff.mpr ⟨h1, rfl⟩
    · intro p hp
      exact hwf.2.1 p hp

/-- Closed instance of `row_id_monotone_never_reused`: delete every
row of `exTableN`, then re-insert; the new row gets the old counter
value 2, above the deleted row's id 1. -/
theorem row_id_monotone_never_reused_witness :
    ∃ t'', Table.insert (Table.delete exTableN Option.none).2 [("a", PyVal.int 5)]
        = (.ok exTableN.next_id, t'') ∧
      ∀ p ∈ exTableN.rows, p.1 < exTableN.next_id :=
  (row_id_monotone_never_reused exTableN
      (by
        refine ⟨by decide, by decide, ?_⟩
        intro p hp
        simp [exTableN] at hp)
      (by
        intro p hp
        simp [exTableN, Table.consistent, consistentRI] at hp)).2.2.2
    Option.none 1 (Table.delete exTableN Option.none).2 [("a", PyVal.int 5)]
    rfl
    (by
      intro c hcm
      have hc' : c = mkColumn "a" .INTEGER false false false := by
        simpa [exTableN] using hcm
      subst hc'
      exact ⟨PyVal.int 5, rfl⟩)
    (by
      intro c hcm hu
      have hc' : c = mkColumn "a" .INTEGER false false false := by
        simpa [exTableN] using hcm
      subst hc'
      simp [mkColumn] at hu)

/-- C6: a failing INSERT, UPDATE or DELETE statement never touches the
snapshot file: each handler persists only after the in-memory mutation
has completed successfully, so whenever the result is an error the
disk component equals the prior snapshot (even though a failed UPDATE
may leave the in-memory table partially mutated). -/
theorem failed_mutation_leaves_disk_untouched (s : Sys) :
    (∀ tn cs vs e s', insertStmt s tn cs vs = (.error e, s') → s'.disk = s.disk) ∧
    (∀ tn sc wc e s', updateStmt s tn sc wc = (.error e, s') → s'.disk = s.disk) ∧
    (∀ tn wc e s', deleteStmt s tn wc = (.error e, s') → s'.disk = s.disk) := by
  refine ⟨?_, ?_, ?_⟩
  · intro tn cs vs e s' h
    rw [insertStmt] at h
    simp only at h
    split at h
    · exact (congrArg (fun q => (Prod.snd q).disk) h).symm
    · split at h
      · exact (congrArg (fun q => (Prod.snd q).disk) h).symm
      · split at h
        · exact (congrArg (fun q => (Prod.snd q).disk) h).symm
        · exact absurd (Prod.ext_iff.mp h).1 (by simp)
  · intro tn sc wc e s' h
    rw [updateStmt] at h
    split at h
    · exact (congrArg (fun q => (Prod.snd q).disk) h).symm
    · split at h
      · exact (congrArg (fun q => (Prod.snd q).disk) h).symm
      · split at h
        · exact (congrArg (fun q => (Prod.snd q).disk) h).symm
        · split at h
          · exact (congrArg (fun q => (Prod.snd q).disk) h).symm
          · exact absurd (Prod.ext_iff.mp h).1 (by simp)
  · intro tn wc e s' h
    rw [deleteStmt] at h
    split at h
    · exact (congrArg (fun q => (Prod.snd q).disk) h).symm
    · split at h
      · exact (congrArg (fun q => (Prod.snd q).disk) h).symm
      · split at h
        · exact (congrArg (fun q => (Prod.snd q).disk) h).symm
        · exact absurd (Prod.ext_iff.mp h).1 (by simp)

/-- Closed instance of `failed_mutation_leaves_disk_untouched`: an
INSERT into a missing table on the empty system fails and leaves the
(absent) snapshot as it was. -/
theorem failed_mutation_leaves_disk_untouched_witness :
    (insertStmt exSys "t" "a" "1").2.disk = exSys.disk :=
  (failed_mutation_leaves_disk_untouched exSys).1 "t" "a" "1"
    (.unknownTable "t") (insertStmt exSys "t" "a" "1").2 rfl

/-- C8: the INNER JOIN evaluator is exactly the full cross-product
filtered by the single equality predicate — one result row per
left/right pair with equal join values (so k result rows for k
matching pairs) — and, when the projected columns have distinct
qualified names each owned by one of the two (distinct) tables, every
projected column of a result row is keyed `table.col` and holds the
owning table's value. -/
theorem inner_join_cross_product (ltn rtn jlt jlc jrt jrc : String)
    (cols : List (String × String)) (leftRows rightRows : List Row)
    (hnd : (cols.map qualName).Nodup)
    (hown : ∀ tc ∈ cols, tc.1 = ltn ∨ tc.1 = rtn)
    (hne : ltn ≠ rtn) :
    joinRows ltn rtn jlt jlc jrt jrc cols leftRows rightRows =
      ((allPairs leftRows rightRows).filter
        (fun pr => joinMatches ltn rtn jlt jlc jrt jrc pr.1 pr.2)).map
        (fun pr => buildJoinRow ltn cols pr.1 pr.2) ∧
    (joinRows ltn rtn jlt jlc jrt jrc cols leftRows rightRows).length =
      ((allPairs leftRows rightRows).filter
        (fun pr => joinMatches ltn rtn jlt jlc jrt jrc pr.1 pr.2)).length ∧
    (∀ lr rr, ∀ tc ∈ cols,
       (tc.1 = ltn →
         rowGet (buildJoinRow ltn cols lr rr) (qualName tc) = rowGet lr tc.2) ∧
       (tc.1 = rtn →
         rowGet (buildJoinRow ltn cols lr rr) (qualName tc) = rowGet rr tc.2)) := by
  refine ⟨joinRows_eq ltn rtn jlt jlc jrt jrc cols leftRows rightRows, ?_, ?_⟩
  · rw [joinRows_eq ltn rtn jlt jlc jrt jrc cols leftRows rightRows]
    exact List.length_map _ _
  · intro lr rr tc htc
    have hbuild : buildJoinRow ltn cols lr rr =
        cols.map (fun tc => (qualName tc,
          if tc.1 == ltn then rowGet lr tc.2 else rowGet rr tc.2)) := by
      have h := foldl_rowSet_map qualName
        (fun tc => if tc.1 == ltn then rowGet lr tc.2 else rowGet rr tc.2) cols []
        (by simpa using hnd)
      simpa [buildJoinRow] using h
    have hget : rowGet (buildJoinRow ltn cols lr rr) (qualName tc) =
        (if tc.1 == ltn then rowGet lr tc.2 else rowGet rr tc.2) := by
      rw [hbuild]
      exact rowGet_map_assoc qualName _ cols tc htc hnd
    constructor
    · intro hl
      rw [hget, if_pos (by simp [hl])]
    · intro hr
      have hc : (tc.1 == ltn) = false := by
        rw [beq_eq_false_iff_ne]
        intro hc
        exact hne (hc.symm.trans hr)
      rw [hget, hc]
      simp

/-- Closed instance of `inner_join_cross_product` on one-row tables
`u` and `o` joined on `u.id = o.uid`. -/
theorem inner_join_cross_product_witness :
    joinRows "u" "o" "u" "id" "o" "uid" [("u", "id"), ("o", "t")]
        [[("id", PyVal.int 1)]] [[("uid", PyVal.int 1), ("t", PyVal.int 9)]] =
      ((allPairs [[("id", PyVal.int 1)]] [[("uid", PyVal.int 1), ("t", PyVal.int 9)]]).filter
        (fun pr => joinMatches "u" "o" "u" "id" "o" "uid" pr.1 pr.2)).map
        (fun pr => buildJoinRow "u" [("u", "id"), ("o", "t")] pr.1 pr.2) :=
  (inner_join_cross_product "u" "o" "u" "id" "o" "uid" [("u", "id"), ("o", "t")]
    [[("id", PyVal.int 1)]] [[("uid", PyVal.int 1), ("t", PyVal.int 9)]]
    (by decide) (by decide) (by decide)).1

/-- C9 (amended, corrected): a select returns, for each matching row,
a result carrying exactly the requested columns (declared order when
unspecified) plus the one reserved field `_row_id` holding the row's
identifier, appended after projection — provided no requested column
is itself named `_row_id`; the engine does not forbid declaring such a
column, and when one exists the reserved field overwrites it in the
result (see the counterexample). -/
theorem select_projection_row_id (t : Table) (cols : List String) (wh : Option Pred)
    (res : List Row) (hnd : cols.Nodup) (hrid : "_row_id" ∉ cols)
    (hok : t.select (some cols) wh = .ok res) :
    (t.select Option.none wh = t.select (some (t.columns.map (fun c => c.name))) wh) ∧
    (∀ r ∈ res, ∃ i row, (i, row) ∈ t.rows ∧ evalWhere wh row = .ok true ∧
       r.map (fun p => p.1) = cols ++ ["_row_id"] ∧
       rowGet r "_row_id" = PyVal.int (i : Int) ∧
       ∀ c ∈ cols, rowGet r c = rowGet row c) := by
  refine ⟨rfl, ?_⟩
  intro r hr
  rw [Table.select] at hok
  rw [selectGo_ok_spec hok] at hr
  obtain ⟨p, hp, hfp⟩ := List.mem_filterMap.mp hr
  obtain ⟨i, row⟩ := p
  cases hev : evalWhere wh row with
  | error e =>
    rw [hev] at hfp
    exact absurd hfp (by simp)
  | ok b =>
    rw [hev] at hfp
    cases b with
    | false => exact absurd hfp (by simp)
    | true =>
      simp only at hfp
      have hreq : r = rowSet (buildProj cols row) "_row_id" (PyVal.int (i : Int)) :=
        (Option.some.inj hfp).symm
      have hkeys : ∀ q ∈ buildProj cols row, q.1 ≠ "_row_id" := by
        intro q hq
        rw [buildProj_eq hnd] at hq
        obtain ⟨c, hcm, rfl⟩ := List.mem_map.mp hq
        intro hcontra
        exact hrid (hcontra ▸ hcm)
      have happ : r = buildProj cols row ++ [("_row_id", PyVal.int (i : Int))] := by
        rw [hreq, rowSet_not_mem hkeys]
      refine ⟨i, row, hp, hev, ?_, ?_, ?_⟩
      · rw [happ, buildProj_eq hnd]
        simp [List.map_map]
        exact List.map_id' cols
      · rw [happ]
        exact rowGet_append_right_of_not_mem hkeys
      · intro c hcm
        rw [happ]
        rw [rowGet_append_left_of_mem
          ⟨(c, rowGet row c), by rw [buildProj_eq hnd]; exact List.mem_map.mpr ⟨c, hcm, rfl⟩, rfl⟩]
        rw [buildProj_eq hnd]
        exact rowGet_map_assoc (fun c => c) (fun c => rowGet row c) cols c hcm
          (by simpa using hnd)

/-- Closed instance of `select_projection_row_id` on `exTableN` with
requested column `a`. -/
theorem select_projection_row_id_witness :
    (Table.select exTableN Option.none Option.none
        = Table.select exTableN (some (exTableN.columns.map (fun c => c.name)))
            Option.none) ∧
    (∀ r ∈ [[("a", PyVal.int 5), ("_row_id", PyVal.int 1)]],
       ∃ i row, (i, row) ∈ exTableN.rows ∧
         evalWhere Option.none row = .ok true ∧
         r.map (fun p => p.1) = ["a"] ++ ["_row_id"] ∧
         rowGet r "_row_id" = PyVal.int (i : Int) ∧
         ∀ c ∈ ["a"], rowGet r c = rowGet row c) :=
  select_projection_row_id exTableN ["a"] Option.none
    [[("a", PyVal.int 5), ("_row_id", PyVal.int 1)]]
    (by decide) (by decide) rfl

/-- C10 (amended, corrected): insert silently ignores undeclared keys
— it never raises UnknownColumn, the stored row carries exactly the
declared columns with missing declared columns stored as null, and
dropping the undeclared keys leaves the whole result unchanged —
whereas an update naming an undeclared column anywhere in its SET list
fails with UnknownColumn as soon as some row matches the WHERE
predicate, provided the assignments preceding the undeclared column
apply cleanly to the first matching row (an earlier failing assignment
raises its own error instead, and with no matching row the update
succeeds with count 0; see the counterexample). -/
theorem insert_ignores_unknown_keys :
    (∀ (t : Table) (vals : Row) (cn : String),
       (t.insert vals).1 ≠ .error (.unknownColumn cn)) ∧
    (∀ (t : Table) (vals : Row) (id : Nat) (t' : Table),
       t.insert vals = (.ok id, t') →
       ∃ row, t'.rows = t.rows ++ [(id, row)] ∧
         row.map (fun p => p.1) = t.columns.map (fun c => c.name) ∧
         ∀ c ∈ t.columns, rowGet vals c.name = PyVal.null →
           rowGet row c.name = PyVal.null) ∧
    (∀ (t : Table) (vals : Row),
       t.insert (vals.filter (fun p => (t.columns.map (fun c => c.name)).contains p.1))
         = t.insert vals) ∧
    (∀ (t : Table) (k : String) (v : PyVal) (pre post : Row) (wh : Option Pred)
       (A B : List (Nat × Row)) (id₀ : Nat) (row₀ : Row),
       (∀ c ∈ t.columns, c.name ≠ k) →
       t.rows = A ++ (id₀, row₀) :: B →
       (∀ p ∈ A, evalWhere wh p.2 = .ok false) →
       evalWhere wh row₀ = .ok true →
       (applyAssigns t.columns (removeRowIdxs t.indexes id₀ row₀) id₀ pre row₀).1
         = Option.none →
       (t.update (pre ++ (k, v) :: post) wh).1 = .error (.unknownColumn k)) := by
  refine ⟨?_, ?_, ?_, ?_⟩
  · intro t vals cn h
    cases hins : insertLoop t.indexes vals t.columns with
    | error e =>
      rw [Table.insert, hins] at h
      simp only at h
      have he := Except.error.inj h
      rcases insertLoop_error_shape (he ▸ hins) with ⟨s, hs⟩ | ⟨s, hs⟩ | ⟨s, v', hs⟩ <;>
        exact absurd hs (by simp)
    | ok row =>
      rw [Table.insert, hins] at h
      exact absurd h (by simp)
  · intro t vals id t' h
    cases hins : insertLoop t.indexes vals t.columns with
    | error e =>
      rw [Table.insert, hins] at h
      exact absurd (Prod.ext_iff.mp h).1 (by simp)
    | ok row =>
      rw [Table.insert, hins] at h
      simp only at h
      obtain ⟨h1, h2⟩ := Prod.ext_iff.mp h
      simp only at h1 h2
      injection h1 with h1
      subst h1
      refine ⟨row, ?_, insertLoop_keys hins, insertLoop_null_missing hins⟩
      rw [← h2]
  · intro t vals
    rw [Table.insert, Table.insert,
      insertLoop_filter_eq (fun c hc => List.mem_map.mpr ⟨c, hc, rfl⟩)]
  · intro t k v pre post wh A B id₀ row₀ hk hrows hA hev hpre
    have hfind : findCol t.columns k = Option.none := by
      rw [findCol, List.find?_eq_none]
      intro c hc
      simp [hk c hc]
    have hmain := @updateGo_first_match_unknown t.columns k v pre post wh hfind
      A t.indexes id₀ row₀ B hA hev hpre
    rw [← hrows] at hmain
    rcases hgo : updateGo t.columns (pre ++ (k, v) :: post) wh t.rows t.indexes
      with ⟨res, a, b⟩
    rw [hgo] at hmain
    simp only at hmain
    rw [Table.update, hgo, hmain]

/-- Closed instance of `insert_ignores_unknown_keys`: updating the
undeclared column `zz` on the one-row table `exTableN` (whose single
row is the first WHERE match, with no preceding assignments) fails
with UnknownColumn. -/
theorem insert_ignores_unknown_keys_witness :
    (Table.update exTableN ([] ++ ("zz", PyVal.int 1) :: []) Option.none).1
        = .error (.unknownColumn "zz") :=
  insert_ignores_unknown_keys.2.2.2 exTableN "zz" (PyVal.int 1) [] [] Option.none
    [] [] 1 [("a", PyVal.int 5)]
    (by
      intro c hcm
      have hc' : c = mkColumn "a" .INTEGER false false false := by
        simpa [exTableN] using hcm
      subst hc'
      decide)
    rfl
    (by
      intro p hp
      exact absurd hp (List.not_mem_nil p))
    rfl
    rfl
